import Mathlib

/-!
# RayTracingLearn: sphere intersection, face normals and the radiance recursion

A shallow embedding of `sphere.h`, `hittable.h`, `camera.h` and `main.cpp`.

The C++ `double` is read as an element of a linearly ordered field `K`, with
`std::sqrt` passed as a function `sqrt : K → K`; the main theorems are stated
at `K = ℝ` with `sqrt = Real.sqrt`, the exact-precision arithmetic the design
document assumes.  Rounding, NaN and overflow are outside this reading.  Field
division is total (`x / 0 = 0`), where IEEE division yields NaN or an infinity:
statements whose content depends on a quotient say which divisor is non-zero.
The constant `infinity` only occurs as an interval bound, so interval bounds
range over `K` extended by `-∞` and `+∞`.  `std::tan` and the constant `pi` are
parameters of `camera.initialize`; the random sources of `get_ray` are
parameters too.  The type `int` is read as the integers and `int(x)` as
truncation toward zero.
-/

namespace RT

/-! ## Vectors, rays, intervals (headers that are not part of the sources) -/

/-- Modelled from the spec: `vec3.h` is not among the sources; a 3-component
real-valued vector. -/
structure vec3 (K : Type) where
  x : K
  y : K
  z : K
deriving DecidableEq

/-- Modelled from the spec: `point3` is an alias of `vec3`. -/
abbrev point3 (K : Type) := vec3 K

/-- Modelled from the spec: `color` is an alias of `vec3` (an RGB triple). -/
abbrev color (K : Type) := vec3 K

section ops
variable {K : Type} [LinearOrderedField K]

/-- Modelled from the spec: vector addition (`vec3.h` is missing). -/
def vec3.add (u v : vec3 K) : vec3 K := ⟨u.x + v.x, u.y + v.y, u.z + v.z⟩

/-- Modelled from the spec: vector subtraction (`vec3.h` is missing). -/
def vec3.sub (u v : vec3 K) : vec3 K := ⟨u.x - v.x, u.y - v.y, u.z - v.z⟩

/-- Modelled from the spec: unary minus of a vector (`vec3.h` is missing). -/
def vec3.neg (v : vec3 K) : vec3 K := ⟨-v.x, -v.y, -v.z⟩

/-- Modelled from the spec: scalar scale `t * v` (`vec3.h` is missing). -/
def vec3.smul (t : K) (v : vec3 K) : vec3 K := ⟨t * v.x, t * v.y, t * v.z⟩

/-- Modelled from the spec: component-wise product of two vectors, used for
`attenuation * colour` (`vec3.h` is missing). -/
def vec3.mul (u v : vec3 K) : vec3 K := ⟨u.x * v.x, u.y * v.y, u.z * v.z⟩

/-- Modelled from the spec: `v / t`, the scalar scale by `1/t` (`vec3.h` is
missing). -/
def vec3.div (v : vec3 K) (t : K) : vec3 K := vec3.smul (1 / t) v

/-- Modelled from the spec: dot product (`vec3.h` is missing). -/
def dot (u v : vec3 K) : K := u.x * v.x + u.y * v.y + u.z * v.z

/-- Modelled from the spec: squared length (`vec3.h` is missing). -/
def vec3.length_squared (v : vec3 K) : K := v.x * v.x + v.y * v.y + v.z * v.z

/-- Modelled from the spec: length, the square root of the squared length
(`vec3.h` is missing). -/
def vec3.length (sqrt : K → K) (v : vec3 K) : K := sqrt v.length_squared

/-- Modelled from the spec: normalization `v / |v|` (`vec3.h` is missing). -/
def unit_vector (sqrt : K → K) (v : vec3 K) : vec3 K := v.div (v.length sqrt)

instance : Add (vec3 K) := ⟨vec3.add⟩
instance : Sub (vec3 K) := ⟨vec3.sub⟩
instance : Neg (vec3 K) := ⟨vec3.neg⟩
instance : Mul (vec3 K) := ⟨vec3.mul⟩
instance : HMul K (vec3 K) (vec3 K) := ⟨vec3.smul⟩
instance : HDiv (vec3 K) K (vec3 K) := ⟨vec3.div⟩

/-- Modelled from the spec: `ray.h` is not among the sources; origin point plus
direction vector, the direction not required to be unit length. -/
structure ray (K : Type) where
  origin : point3 K
  direction : vec3 K

/-- Modelled from the spec: the point `origin + t*direction` of the ray
(`ray::at`; `ray.h` is missing). -/
def ray.at (r : ray K) (t : K) : point3 K := r.origin + t * r.direction

/-- A `double` that may also be `-∞` or `+∞`, as the bounds of an interval may. -/
abbrev bound (K : Type) := WithBot (WithTop K)

/-- The finite bound `x`. -/
def bound.fin (x : K) : bound K := ((x : WithTop K) : WithBot (WithTop K))

/-- Modelled from the spec: the constant `infinity` of the common header. -/
def infinity : bound K := ((⊤ : WithTop K) : WithBot (WithTop K))

/-- Modelled from the spec: `interval.h` is not among the sources; the pair
`(min, max)` bounding the acceptable hit distances. -/
structure interval (K : Type) where
  min : bound K
  max : bound K

/-- Modelled from the spec: `surrounds(x)`, strict exclusive bounds
(`interval.h` is missing). -/
def interval.surrounds (i : interval K) (x : K) : Bool :=
  decide (i.min < bound.fin x ∧ bound.fin x < i.max)

/-! ## hittable.h -/

/-- The class `hit_record` of hittable.h: hit point, normal, distance along the
ray and the front-face flag. -/
structure hit_record (K : Type) where
  p : point3 K
  normal : vec3 K
  t : K
  front_face : Bool

/-- The method `hit_record::set_face_normal`: `front_face` is set to
`dot(r.direction(), outward_normal) < 0` and `normal` to the outward normal when
`front_face` holds and to its negation otherwise. -/
def hit_record.set_face_normal (rec : hit_record K) (r : ray K)
    (outward_normal : vec3 K) : hit_record K :=
  let front_face : Bool := decide (dot r.direction outward_normal < 0)
  { rec with
    front_face := front_face
    normal := if front_face then outward_normal else -outward_normal }

/-- The interface `hittable::hit(r, ray_t, rec)`: the returned pair is the
boolean result and the record `rec` as the call leaves it. -/
abbrev hittable (K : Type) := ray K → interval K → hit_record K → Bool × hit_record K

/-! ## sphere.h -/

/-- The class `sphere`: its two private members. -/
structure sphere (K : Type) where
  center : point3 K
  radius : K

/-- The constructor `sphere(center, radius)`: the radius is stored as
`std::fmax(0, radius)`. -/
def sphere.make (center : point3 K) (radius : K) : sphere K :=
  { center := center, radius := max 0 radius }

/-- The local `a` of `sphere::hit`, `r.direction().length_squared()`. -/
def sphere.a (r : ray K) : K := r.direction.length_squared

/-- The local `h` of `sphere::hit`, `dot(r.direction(), oc)` with
`oc = center - r.origin()`. -/
def sphere.h (s : sphere K) (r : ray K) : K := dot r.direction (s.center - r.origin)

/-- The local `c` of `sphere::hit`, `oc.length_squared() - radius*radius`. -/
def sphere.c (s : sphere K) (r : ray K) : K :=
  (s.center - r.origin).length_squared - s.radius * s.radius

/-- The local `discriminant` of `sphere::hit`, `h*h - a*c`. -/
def sphere.discriminant (s : sphere K) (r : ray K) : K :=
  sphere.h s r * sphere.h s r - sphere.a r * sphere.c s r

/-- The first candidate root of `sphere::hit`, `(h - sqrtd) / a`. -/
def sphere.near_root (sqrt : K → K) (s : sphere K) (r : ray K) : K :=
  (sphere.h s r - sqrt (sphere.discriminant s r)) / sphere.a r

/-- The second candidate root of `sphere::hit`, `(h + sqrtd) / a`. -/
def sphere.far_root (sqrt : K → K) (s : sphere K) (r : ray K) : K :=
  (sphere.h s r + sqrt (sphere.discriminant s r)) / sphere.a r

/-- The method `sphere::hit`.  The two `return false` leave the record as it
came in; otherwise `t`, `p` and `normal` are assigned in that order and
`set_face_normal` is called with `(p - center) / radius`. -/
def sphere.hit (sqrt : K → K) (s : sphere K) : hittable K := fun r ray_t rec =>
  let oc := s.center - r.origin
  let a := r.direction.length_squared
  let h := dot r.direction oc
  let c := oc.length_squared - s.radius * s.radius
  let discriminant := h * h - a * c
  if discriminant < 0 then (false, rec)
  else
    let sqrtd := sqrt discriminant
    -- Find the nearest root that lies in the acceptable range.
    let root := (h - sqrtd) / a
    let found : Option K :=
      if !ray_t.surrounds root then
        let root := (h + sqrtd) / a
        if !ray_t.surrounds root then none
        else some root
      else some root
    match found with
    | none => (false, rec)
    | some root =>
      let rec1 := { rec with t := root }
      let rec2 := { rec1 with p := r.at rec1.t }
      let rec3 := { rec2 with normal := (rec2.p - s.center) / s.radius }
      let outward_normal := (rec3.p - s.center) / s.radius
      (true, rec3.set_face_normal r outward_normal)

/-- The legacy function `is_hit_sphere` (sphere.h and main.cpp). -/
def is_hit_sphere (center : point3 K) (radius : K) (r : ray K) : Bool :=
  let oc := center - r.origin
  let a := dot r.direction r.direction
  let b := -2 * dot r.direction oc
  let c := dot oc oc - radius * radius
  let discriminant := b * b - 4 * a * c
  decide (discriminant > 0)

/-- The function `hit_sphere` (sphere.h and main.cpp): full quadratic formula,
`-1.0` on a negative discriminant. -/
def hit_sphere (sqrt : K → K) (center : point3 K) (radius : K) (r : ray K) : K :=
  let oc := center - r.origin
  let a := dot r.direction r.direction
  let b := -2 * dot r.direction oc
  let c := dot oc oc - radius * radius
  let discriminant := b * b - 4 * a * c
  if discriminant < 0 then -1
  else (-b - sqrt discriminant) / (2 * a)

/-- The function `hit_sphere_simple` (sphere.h and main.cpp): the half-b form,
`-1.0` on a negative discriminant. -/
def hit_sphere_simple (sqrt : K → K) (center : point3 K) (radius : K) (r : ray K) : K :=
  let oc := center - r.origin
  let a := r.direction.length_squared
  let h := dot r.direction oc
  let c := oc.length_squared - radius * radius
  let discriminant := h * h - a * c
  if discriminant < 0 then -1
  else (h - sqrt discriminant) / a

/-! ## camera.h -/

/-- Modelled from the spec: `material.h` is not among the sources; the call
`rec.mat->scatter(r, rec, attenuation, scattered)` is a function of the incoming
ray and the hit record that either reports no scatter or supplies the
attenuation colour and the scattered ray. -/
abbrev scatter_fn (K : Type) := ray K → hit_record K → Option (color K × ray K)

/-- The colour black, `color(0,0,0)`. -/
def black : color K := ⟨0, 0, 0⟩

/-- The last three lines of `camera::ray_color` (lines 101 to 103): the vertical
gradient returned when the ray hits nothing. -/
def camera.background (sqrt : K → K) (r : ray K) : color K :=
  let unit_direction := unit_vector sqrt r.direction
  let a := (1 / 2) * (unit_direction.y + 1)
  (1 - a) * (⟨1, 1, 1⟩ : color K) + a * (⟨1 / 2, 7 / 10, 1⟩ : color K)

/-- The public members of the class `camera`, with their default values. -/
structure camera (K : Type) [LinearOrderedField K] where
  aspect_ratio : K := 1
  image_width : Int := 100
  samples_per_pixel : Int := 10
  vfov : K := 90
  max_depth : Int := 10
  lookfrom : point3 K := ⟨0, 0, 0⟩
  lookat : point3 K := ⟨0, 0, -1⟩
  vup : vec3 K := ⟨0, 1, 0⟩
  defocus_angle : K := 0
  focus_dist : K := 10

/-- The search interval `interval(0.001, infinity)` of `camera::ray_color`. -/
def camera.ray_t : interval K := { min := bound.fin (1 / 1000), max := infinity }

/-- The method `camera::ray_color`, returning the colour together with the
arguments `(r, depth)` of every activation that calls `world.hit`, outermost
first.  `rec0` is the content of the local `hit_record rec` before the call to
`world.hit`. -/
def camera.ray_color_run (sqrt : K → K) (world : hittable K) (scatter : scatter_fn K)
    (rec0 : hit_record K) (r : ray K) (depth : Int) : color K × List (ray K × Int) :=
  -- If we've exceeded the ray bounce limit, no more light is gathered.
  if depth ≤ 0 then (black, [])
  else
    match world r camera.ray_t rec0 with
    | (true, rec1) =>
      match scatter r rec1 with
      | some (attenuation, scattered) =>
        let sub := camera.ray_color_run sqrt world scatter rec0 scattered (depth - 1)
        (attenuation * sub.1, (r, depth) :: sub.2)
      | none => (black, [(r, depth)])
    | (false, _) => (camera.background sqrt r, [(r, depth)])
termination_by depth.toNat
decreasing_by omega

/-- The value returned by `camera::ray_color(r, depth, world)`. -/
def camera.ray_color (sqrt : K → K) (world : hittable K) (scatter : scatter_fn K)
    (rec0 : hit_record K) (r : ray K) (depth : Int) : color K :=
  (camera.ray_color_run sqrt world scatter rec0 r depth).1

/-- The calls of `world.hit` that `camera::ray_color(r, depth, world)` makes:
the ray passed and the `depth` of the activation making the call. -/
def camera.ray_color_queries (sqrt : K → K) (world : hittable K) (scatter : scatter_fn K)
    (rec0 : hit_record K) (r : ray K) (depth : Int) : List (ray K × Int) :=
  (camera.ray_color_run sqrt world scatter rec0 r depth).2

/-- The call `ray_color(r, max_depth, world)` that `camera::render` makes for
each sample (line 30). -/
def camera.render_sample (cam : camera K) (sqrt : K → K) (world : hittable K)
    (scatter : scatter_fn K) (rec0 : hit_record K) (r : ray K) :
    color K × List (ray K × Int) :=
  camera.ray_color_run sqrt world scatter rec0 r cam.max_depth

/-- The path of a ray through the scene: `camera.bounces world scatter rec0 r As r'`
holds when, starting with `r`, `As.length` consecutive rays hit the world and
the materials hit scatter them with the attenuations `As`, in this order, and
`r'` is the last scattered ray (`r` itself when `As` is empty). -/
inductive camera.bounces (world : hittable K) (scatter : scatter_fn K) (rec0 : hit_record K) :
    ray K → List (color K) → ray K → Prop
  | done (r : ray K) : camera.bounces world scatter rec0 r [] r
  | step (r : ray K) (rec1 : hit_record K) (attenuation : color K) (scattered : ray K)
      (As : List (color K)) (r' : ray K) :
      world r camera.ray_t rec0 = (true, rec1) →
      scatter r rec1 = some (attenuation, scattered) →
      camera.bounces world scatter rec0 scattered As r' →
      camera.bounces world scatter rec0 r (attenuation :: As) r'

/-- The component-wise product `A1 * ... * Ak` of a list of colours. -/
def color_product (As : List (color K)) : color K :=
  As.foldr (fun A c => A * c) ⟨1, 1, 1⟩

/-! ## Concrete inputs: the scene of main.cpp and simple materials -/

/-- The sphere of main.cpp's `ray_color`: centre `(0,0,-1)`, radius `0.5`. -/
def demo_sphere : sphere K := { center := ⟨0, 0, -1⟩, radius := 1 / 2 }

/-- The ray from the camera centre `(0,0,0)` straight down the `-z` axis. -/
def demo_ray : ray K := { origin := ⟨0, 0, 0⟩, direction := ⟨0, 0, -1⟩ }

/-- The ray from `(0,0,-0.5)`, the point of the sphere of main.cpp nearest the
camera, straight up. -/
def up_ray : ray K := { origin := ⟨0, 0, -(1 / 2)⟩, direction := ⟨0, 1, 0⟩ }

/-- The ray from `(0,0,0)` down the `-z` axis with a direction of length 2. -/
def long_ray : ray K := { origin := ⟨0, 0, 0⟩, direction := ⟨0, 0, -2⟩ }

/-- The ray that starts at the centre `(0,0,-1)` of the sphere of main.cpp and
runs down the `-z` axis: it leaves the sphere from the inside. -/
def inner_ray : ray K := { origin := ⟨0, 0, -1⟩, direction := ⟨0, 0, -1⟩ }

/-- The sphere that `sphere(point3(0,0,-1), 0)` constructs. -/
def point_sphere : sphere K := sphere.make ⟨0, 0, -1⟩ 0

/-- The search interval `interval(0, infinity)`. -/
def positive_interval : interval K := { min := bound.fin 0, max := infinity }

/-- A record with every field zero, standing for the record before a call. -/
def zero_record : hit_record K :=
  { p := ⟨0, 0, 0⟩, normal := ⟨0, 0, 0⟩, t := 0, front_face := false }

/-- A material that scatters every ray straight up from the hit point and halves
each colour component. -/
def half_up : scatter_fn K := fun _ rec => some (⟨1 / 2, 1 / 2, 1 / 2⟩, ⟨rec.p, ⟨0, 1, 0⟩⟩)

/-- A material that absorbs every ray. -/
def absorber : scatter_fn K := fun _ _ => none

end ops

/-! ## camera.h: ray generation, and main.cpp -/

section rays
variable {K : Type} [LinearOrderedField K]

instance : HMul (vec3 K) K (vec3 K) := ⟨fun v t => vec3.smul t v⟩

/-- Modelled from the spec: cross product (`vec3.h` is missing). -/
def cross (u v : vec3 K) : vec3 K :=
  ⟨u.y * v.z - u.z * v.y, u.z * v.x - u.x * v.z, u.x * v.y - u.y * v.x⟩

/-- Modelled from the spec: `degrees_to_radians` of the common header, which is
not among the sources; `pi` is the constant of that header. -/
def degrees_to_radians (pi : K) (degrees : K) : K := degrees * pi / 180

/-- The private members of the class `camera`, which `initialize` sets. -/
structure camera.state (K : Type) where
  image_height : Int
  center : point3 K
  pixel00_loc : point3 K
  pixel_delta_u : vec3 K
  pixel_delta_v : vec3 K
  pixel_samples_scale : K
  u : vec3 K
  v : vec3 K
  w : vec3 K
  defocus_disk_u : vec3 K
  defocus_disk_v : vec3 K

/-- The method `camera::sample_square`; `rx` and `ry` are the results of its two
calls of `random_double()`. -/
def camera.sample_square (rx ry : K) : vec3 K := ⟨rx - 1 / 2, ry - 1 / 2, 0⟩

/-- The method `camera::defocus_disk_sample`; `p` is the result of its call of
`random_in_unit_disk()`. -/
def camera.defocus_disk_sample (st : camera.state K) (p : vec3 K) : point3 K :=
  st.center + (p.x * st.defocus_disk_u) + (p.y * st.defocus_disk_v)

/-- The method `camera::get_ray(i, j)` on an initialized camera; `rx`, `ry` and
`p` are the outcomes of the random sources of `sample_square` and
`defocus_disk_sample`. -/
def camera.get_ray (cam : camera K) (st : camera.state K) (rx ry : K) (p : vec3 K)
    (i j : Int) : ray K :=
  let offset := camera.sample_square rx ry
  let pixel_sample := st.pixel00_loc
    + (((i : K) + offset.x) * st.pixel_delta_u)
    + (((j : K) + offset.y) * st.pixel_delta_v)
  let ray_origin := if cam.defocus_angle ≤ 0 then st.center
    else camera.defocus_disk_sample st p
  let ray_direction := pixel_sample - ray_origin
  { origin := ray_origin, direction := ray_direction }

/-- The function `ray_color` of main.cpp: the normal visualization of the sphere
with centre `(0,0,-1)` and radius `0.5`, over the background gradient. -/
def ray_color (sqrt : K → K) (r : ray K) : color K :=
  let t := hit_sphere_simple sqrt ⟨0, 0, -1⟩ (1 / 2) r
  if t > 0 then
    let N := unit_vector sqrt (r.at t - (⟨0, 0, -1⟩ : vec3 K))
    (1 / 2 : K) * (⟨N.x + 1, N.y + 1, N.z + 1⟩ : color K)
  else
    let unit_direction := unit_vector sqrt r.direction
    let a := (1 / 2) * (unit_direction.y + 1)
    (1 - a) * (⟨1, 1, 1⟩ : color K) + a * (⟨1 / 2, 7 / 10, 1⟩ : color K)

/-- Every component of the colour `c` lies in `[0,1]`. -/
def in_unit_cube (c : color K) : Prop :=
  (0 ≤ c.x ∧ c.x ≤ 1) ∧ (0 ≤ c.y ∧ c.y ≤ 1) ∧ (0 ≤ c.z ∧ c.z ≤ 1)

/-! ## Concrete camera configurations -/

/-- The camera with every public member at its default value. -/
def default_camera : camera K := {}

end rays

/-! ## camera.h: initialization -/

section setup
variable {K : Type} [LinearOrderedField K] [FloorRing K]

/-- The conversion `int(x)` of a `double`: truncation toward zero.  The type
`int` is read as the integers; values of `x` outside the range of `int`, where
the conversion is undefined, are outside this reading. -/
def to_int (x : K) : Int := if 0 ≤ x then ⌊x⌋ else ⌈x⌉

/-- The method `camera::initialize`; `tan` is `std::tan` and `pi` the constant
used by `degrees_to_radians`. -/
def camera.initialize (sqrt tan : K → K) (pi : K) (cam : camera K) : camera.state K :=
  let image_height : Int := to_int ((cam.image_width : K) / cam.aspect_ratio)
  let image_height : Int := if image_height < 1 then 1 else image_height
  let pixel_samples_scale : K := 1 / (cam.samples_per_pixel : K)
  let center := cam.lookfrom
  -- viewport width and height from the field of view and the focus distance
  let theta := degrees_to_radians pi cam.vfov
  let h := tan (theta / 2)
  let viewport_height := 2 * h * cam.focus_dist
  let viewport_width := viewport_height * ((cam.image_width : K) / (image_height : K))
  -- the u,v,w unit basis vectors for the camera coordinate frame
  let w := unit_vector sqrt (cam.lookfrom - cam.lookat)
  let u := unit_vector sqrt (cross cam.vup w)
  let v := cross w u
  let viewport_u : vec3 K := viewport_width * u
  let viewport_v : vec3 K := viewport_height * -v
  let pixel_delta_u : vec3 K := viewport_u / (cam.image_width : K)
  let pixel_delta_v : vec3 K := viewport_v / (image_height : K)
  let viewport_upper_left : vec3 K :=
    center - (cam.focus_dist * w) - viewport_u / (2 : K) - viewport_v / (2 : K)
  let pixel00_loc : vec3 K := viewport_upper_left + (1 / 2 : K) * (pixel_delta_u + pixel_delta_v)
  let defocus_radius := cam.focus_dist * tan (degrees_to_radians pi (cam.defocus_angle / 2))
  let defocus_disk_u : vec3 K := u * defocus_radius
  let defocus_disk_v : vec3 K := v * defocus_radius
  { image_height := image_height
    center := center
    pixel00_loc := pixel00_loc
    pixel_delta_u := pixel_delta_u
    pixel_delta_v := pixel_delta_v
    pixel_samples_scale := pixel_samples_scale
    u := u
    v := v
    w := w
    defocus_disk_u := defocus_disk_u
    defocus_disk_v := defocus_disk_v }

end setup

/-! ## Unfolding lemmas -/

theorem vec3.ext_iff3 {K : Type} (u v : vec3 K) :
    u = v ↔ u.x = v.x ∧ u.y = v.y ∧ u.z = v.z := by
  cases u; cases v; simp

section unfold
variable {K : Type} [LinearOrderedField K]

theorem vec3.add_eq (u v : vec3 K) : u + v = ⟨u.x + v.x, u.y + v.y, u.z + v.z⟩ := rfl

theorem vec3.sub_eq (u v : vec3 K) : u - v = ⟨u.x - v.x, u.y - v.y, u.z - v.z⟩ := rfl

theorem vec3.neg_eq (v : vec3 K) : -v = ⟨-v.x, -v.y, -v.z⟩ := rfl

theorem vec3.mul_eq (u v : vec3 K) : u * v = ⟨u.x * v.x, u.y * v.y, u.z * v.z⟩ := rfl

theorem vec3.smul_eq (t : K) (v : vec3 K) : t * v = (⟨t * v.x, t * v.y, t * v.z⟩ : vec3 K) :=
  rfl

theorem vec3.div_eq (v : vec3 K) (t : K) :
    v / t = (⟨1 / t * v.x, 1 / t * v.y, 1 / t * v.z⟩ : vec3 K) := rfl

theorem ray.at_eq (r : ray K) (t : K) :
    r.at t = ⟨r.origin.x + t * r.direction.x, r.origin.y + t * r.direction.y,
      r.origin.z + t * r.direction.z⟩ := rfl

theorem interval.surrounds_iff (i : interval K) (x : K) :
    i.surrounds x = true ↔ i.min < bound.fin x ∧ bound.fin x < i.max := by
  simp [interval.surrounds]

/-- The boolean result of `sphere::hit` in terms of its named locals. -/
theorem sphere.hit_fst (sqrt : K → K) (s : sphere K) (r : ray K) (ray_t : interval K)
    (rec : hit_record K) :
    (sphere.hit sqrt s r ray_t rec).1 =
      (decide (0 ≤ sphere.discriminant s r) &&
        (ray_t.surrounds (sphere.near_root sqrt s r) ||
          ray_t.surrounds (sphere.far_root sqrt s r))) := by
  unfold sphere.hit
  simp only [← sphere.a.eq_1, ← sphere.h.eq_1, ← sphere.c.eq_1, ← sphere.discriminant.eq_1,
    ← sphere.near_root.eq_1, ← sphere.far_root.eq_1]
  by_cases hd : sphere.discriminant s r < 0
  · simp [hd]
  · have hd2 : 0 ≤ sphere.discriminant s r := not_lt.mp hd
    cases h1 : ray_t.surrounds (sphere.near_root sqrt s r) <;>
      cases h2 : ray_t.surrounds (sphere.far_root sqrt s r) <;> simp [hd, hd2, h1, h2]

/-- The distance recorded by `sphere::hit` when it returns true. -/
theorem sphere.hit_t (sqrt : K → K) (s : sphere K) (r : ray K) (ray_t : interval K)
    (rec : hit_record K) (hit : (sphere.hit sqrt s r ray_t rec).1 = true) :
    (sphere.hit sqrt s r ray_t rec).2.t =
      if ray_t.surrounds (sphere.near_root sqrt s r) then sphere.near_root sqrt s r
      else sphere.far_root sqrt s r := by
  revert hit
  unfold sphere.hit
  simp only [← sphere.a.eq_1, ← sphere.h.eq_1, ← sphere.c.eq_1, ← sphere.discriminant.eq_1,
    ← sphere.near_root.eq_1, ← sphere.far_root.eq_1]
  by_cases hd : sphere.discriminant s r < 0
  · simp [hd]
  · cases h1 : ray_t.surrounds (sphere.near_root sqrt s r) <;>
      cases h2 : ray_t.surrounds (sphere.far_root sqrt s r) <;>
      simp [hd, h1, h2, hit_record.set_face_normal]

/-- The record left by `sphere::hit` when it returns true, in terms of the
recorded distance. -/
theorem sphere.hit_snd (sqrt : K → K) (s : sphere K) (r : ray K) (ray_t : interval K)
    (rec : hit_record K) (hit : (sphere.hit sqrt s r ray_t rec).1 = true) :
    (sphere.hit sqrt s r ray_t rec).2 =
      hit_record.set_face_normal
        { rec with
          t := (sphere.hit sqrt s r ray_t rec).2.t
          p := r.at (sphere.hit sqrt s r ray_t rec).2.t
          normal := (r.at (sphere.hit sqrt s r ray_t rec).2.t - s.center) / s.radius }
        r ((r.at (sphere.hit sqrt s r ray_t rec).2.t - s.center) / s.radius) := by
  revert hit
  unfold sphere.hit
  simp only [← sphere.a.eq_1, ← sphere.h.eq_1, ← sphere.c.eq_1, ← sphere.discriminant.eq_1,
    ← sphere.near_root.eq_1, ← sphere.far_root.eq_1]
  by_cases hd : sphere.discriminant s r < 0
  · simp [hd]
  · cases h1 : ray_t.surrounds (sphere.near_root sqrt s r) <;>
      cases h2 : ray_t.surrounds (sphere.far_root sqrt s r) <;>
      simp [hd, h1, h2, hit_record.set_face_normal]

end unfold

/-! ## The quadratic of the sphere intersection over the reals -/

theorem sphere.a_pos (r : ray ℝ) (hD : r.direction ≠ ⟨0, 0, 0⟩) : 0 < sphere.a r := by
  unfold sphere.a vec3.length_squared
  have h : r.direction.x ≠ 0 ∨ r.direction.y ≠ 0 ∨ r.direction.z ≠ 0 := by
    by_contra hc
    push_neg at hc
    exact hD ((vec3.ext_iff3 _ _).2 ⟨hc.1, hc.2.1, hc.2.2⟩)
  rcases h with h | h | h
  · have := mul_self_pos.2 h
    nlinarith [mul_self_nonneg r.direction.y, mul_self_nonneg r.direction.z]
  · have := mul_self_pos.2 h
    nlinarith [mul_self_nonneg r.direction.x, mul_self_nonneg r.direction.z]
  · have := mul_self_pos.2 h
    nlinarith [mul_self_nonneg r.direction.x, mul_self_nonneg r.direction.y]

/-- The squared distance from the sphere centre to the ray point at `t`, as the
quadratic in `t` whose coefficients `sphere::hit` computes. -/
theorem sphere.quadratic (s : sphere ℝ) (r : ray ℝ) (t : ℝ) :
    (r.at t - s.center).length_squared - s.radius * s.radius =
      sphere.a r * t * t - 2 * sphere.h s r * t + sphere.c s r := by
  simp only [sphere.a, sphere.h, sphere.c, vec3.length_squared, dot, vec3.sub_eq, ray.at_eq]
  ring

/-- With `a ≠ 0`, the ray point at `t` lies on the sphere exactly when
`(a*t - h)^2` is the discriminant. -/
theorem sphere.on_sphere_iff (s : sphere ℝ) (r : ray ℝ) (t : ℝ) (ha : 0 < sphere.a r) :
    (r.at t - s.center).length_squared = s.radius * s.radius ↔
      (sphere.a r * t - sphere.h s r) ^ 2 = sphere.discriminant s r := by
  have hq := sphere.quadratic s r t
  have key : (sphere.a r * t - sphere.h s r) ^ 2 - sphere.discriminant s r =
      sphere.a r * (sphere.a r * t * t - 2 * sphere.h s r * t + sphere.c s r) := by
    unfold sphere.discriminant; ring
  constructor
  · intro h
    have h0 : sphere.a r * t * t - 2 * sphere.h s r * t + sphere.c s r = 0 := by
      rw [← hq, h]; ring
    have := key
    rw [h0, mul_zero] at this
    linarith
  · intro h
    have h0 : sphere.a r * (sphere.a r * t * t - 2 * sphere.h s r * t + sphere.c s r) = 0 := by
      rw [← key, h]; ring
    rcases mul_eq_zero.1 h0 with h1 | h1
    · exact absurd h1 ha.ne.symm
    · rw [h1] at hq; linarith

/-- With `a > 0`, the parameters at which the ray meets the sphere are the two
candidate roots of `sphere::hit`. -/
theorem sphere.on_sphere_iff_root (s : sphere ℝ) (r : ray ℝ) (t : ℝ) (ha : 0 < sphere.a r) :
    (r.at t - s.center).length_squared = s.radius * s.radius ↔
      0 ≤ sphere.discriminant s r ∧
        (t = sphere.near_root Real.sqrt s r ∨ t = sphere.far_root Real.sqrt s r) := by
  rw [sphere.on_sphere_iff s r t ha]
  unfold sphere.near_root sphere.far_root
  constructor
  · intro h
    have hd : 0 ≤ sphere.discriminant s r := by rw [← h]; positivity
    refine ⟨hd, ?_⟩
    have hs : (sphere.a r * t - sphere.h s r) ^ 2 = Real.sqrt (sphere.discriminant s r) ^ 2 := by
      rw [Real.sq_sqrt hd, h]
    rcases sq_eq_sq_iff_eq_or_eq_neg.1 hs with h1 | h1
    · right
      rw [eq_div_iff ha.ne.symm]; linarith
    · left
      rw [eq_div_iff ha.ne.symm]; linarith
  · rintro ⟨hd, h | h⟩
    · rw [h, mul_div_cancel₀ _ ha.ne.symm]
      have := Real.sq_sqrt hd
      nlinarith
    · rw [h, mul_div_cancel₀ _ ha.ne.symm]
      have := Real.sq_sqrt hd
      nlinarith

theorem sphere.near_le_far (s : sphere ℝ) (r : ray ℝ) (ha : 0 < sphere.a r) :
    sphere.near_root Real.sqrt s r ≤ sphere.far_root Real.sqrt s r := by
  unfold sphere.near_root sphere.far_root
  have := Real.sqrt_nonneg (sphere.discriminant s r)
  exact div_le_div_of_nonneg_right (by linarith) ha.le

/-! ## Interval bounds -/

theorem bound.fin_lt_fin {K : Type} [LinearOrderedField K] (x y : K) :
    bound.fin x < bound.fin y ↔ x < y := by
  simp [bound.fin]

theorem bound.fin_lt_infinity {K : Type} [LinearOrderedField K] (x : K) :
    bound.fin x < (infinity : bound K) := by
  simp only [bound.fin, infinity, WithBot.coe_lt_coe]
  exact WithTop.coe_lt_top x

/-! ## The scene of main.cpp evaluated -/

theorem sqrt_quarter : Real.sqrt (1 / 4) = 1 / 2 := by
  rw [show (1 / 4 : ℝ) = (1 / 2) ^ 2 by norm_num]
  exact Real.sqrt_sq (by norm_num)

theorem demo_ray_direction_ne : (demo_ray : ray ℝ).direction ≠ ⟨0, 0, 0⟩ := by
  simp [demo_ray]

theorem demo_discriminant : sphere.discriminant (demo_sphere : sphere ℝ) demo_ray = 1 / 4 := by
  simp [sphere.discriminant, sphere.h, sphere.a, sphere.c, demo_sphere, demo_ray, dot,
    vec3.length_squared, vec3.sub_eq]
  norm_num

theorem demo_near_root : sphere.near_root Real.sqrt (demo_sphere : sphere ℝ) demo_ray = 1 / 2 := by
  rw [sphere.near_root, demo_discriminant, sqrt_quarter]
  simp [sphere.h, sphere.a, demo_sphere, demo_ray, dot, vec3.length_squared, vec3.sub_eq]
  norm_num

theorem demo_hit (rec : hit_record ℝ) :
    (sphere.hit Real.sqrt demo_sphere demo_ray camera.ray_t rec).1 = true := by
  have h : (camera.ray_t : interval ℝ).surrounds (1 / 2) = true := by
    rw [interval.surrounds_iff]
    exact ⟨(bound.fin_lt_fin _ _).2 (by norm_num), bound.fin_lt_infinity _⟩
  rw [sphere.hit_fst, demo_discriminant, demo_near_root, h]
  norm_num

/-! ## sphere::hit: which hits are reported -/

/-- C1: for a sphere of radius `r ≥ 0`, a ray of non-zero direction `D` and a
search interval `(min, max)`, `sphere::hit` returns true exactly when there is a
real `t` with `min < t < max` and `|O + t*D - C|^2 = r^2`. -/
theorem sphere_hit_iff_meets (s : sphere ℝ) (r : ray ℝ) (ray_t : interval ℝ)
    (rec : hit_record ℝ) (_hr : 0 ≤ s.radius) (hD : r.direction ≠ ⟨0, 0, 0⟩) :
    (sphere.hit Real.sqrt s r ray_t rec).1 = true ↔
      ∃ t : ℝ, ray_t.min < bound.fin t ∧ bound.fin t < ray_t.max ∧
        (r.origin + t * r.direction - s.center).length_squared = s.radius ^ 2 := by
  have ha := sphere.a_pos r hD
  rw [sphere.hit_fst]
  simp only [Bool.and_eq_true, Bool.or_eq_true, decide_eq_true_eq, interval.surrounds_iff]
  constructor
  · rintro ⟨hd, h | h⟩
    · refine ⟨_, h.1, h.2, ?_⟩
      rw [sq]
      exact (sphere.on_sphere_iff_root s r _ ha).2 ⟨hd, Or.inl rfl⟩
    · refine ⟨_, h.1, h.2, ?_⟩
      rw [sq]
      exact (sphere.on_sphere_iff_root s r _ ha).2 ⟨hd, Or.inr rfl⟩
  · rintro ⟨t, h1, h2, h3⟩
    rw [sq] at h3
    obtain ⟨hd, h | h⟩ := (sphere.on_sphere_iff_root s r t ha).1 h3
    · exact ⟨hd, Or.inl (h ▸ ⟨h1, h2⟩)⟩
    · exact ⟨hd, Or.inr (h ▸ ⟨h1, h2⟩)⟩

/-- The distance recorded by a successful `sphere::hit` passed the `surrounds`
test of the interval. -/
theorem sphere.hit_t_surrounded (s : sphere ℝ) (r : ray ℝ) (ray_t : interval ℝ)
    (rec : hit_record ℝ) (hit : (sphere.hit Real.sqrt s r ray_t rec).1 = true) :
    ray_t.surrounds (sphere.hit Real.sqrt s r ray_t rec).2.t = true := by
  rw [sphere.hit_t Real.sqrt s r ray_t rec hit]
  rw [sphere.hit_fst] at hit
  simp only [Bool.and_eq_true, Bool.or_eq_true, decide_eq_true_eq] at hit
  by_cases h1 : ray_t.surrounds (sphere.near_root Real.sqrt s r) = true
  · rw [if_pos h1]; exact h1
  · rw [if_neg h1]; exact hit.2.resolve_left h1

/-- C2: whenever `sphere::hit` returns true, the recorded distance lies strictly
inside the interval, `min < rec.t < max`, and the recorded point is
`O + rec.t*D`. -/
theorem sphere_hit_inside_interval (s : sphere ℝ) (r : ray ℝ) (ray_t : interval ℝ)
    (rec : hit_record ℝ) (hit : (sphere.hit Real.sqrt s r ray_t rec).1 = true) :
    ray_t.min < bound.fin (sphere.hit Real.sqrt s r ray_t rec).2.t ∧
      bound.fin (sphere.hit Real.sqrt s r ray_t rec).2.t < ray_t.max ∧
      (sphere.hit Real.sqrt s r ray_t rec).2.p =
        r.origin + (sphere.hit Real.sqrt s r ray_t rec).2.t * r.direction := by
  have hs := (interval.surrounds_iff _ _).1 (sphere.hit_t_surrounded s r ray_t rec hit)
  refine ⟨hs.1, hs.2, ?_⟩
  conv_lhs => rw [sphere.hit_snd Real.sqrt s r ray_t rec hit]
  rfl

/-- C3: `sphere::hit` tries the nearer root `(h - sqrtd)/a` first and the
farther root `(h + sqrtd)/a` only if the nearer one is not strictly inside the
interval; so for a sphere of radius `r ≥ 0` and a ray of non-zero direction,
whenever it returns true, `rec.t` is the smallest `t` inside the interval at
which the ray meets the sphere. -/
theorem sphere_hit_nearest_root (s : sphere ℝ) (r : ray ℝ) (ray_t : interval ℝ)
    (rec : hit_record ℝ) (_hr : 0 ≤ s.radius) (hD : r.direction ≠ ⟨0, 0, 0⟩)
    (hit : (sphere.hit Real.sqrt s r ray_t rec).1 = true) :
    (sphere.hit Real.sqrt s r ray_t rec).2.t =
        (if ray_t.surrounds (sphere.near_root Real.sqrt s r)
          then sphere.near_root Real.sqrt s r else sphere.far_root Real.sqrt s r) ∧
      sphere.near_root Real.sqrt s r ≤ sphere.far_root Real.sqrt s r ∧
      (ray_t.min < bound.fin (sphere.hit Real.sqrt s r ray_t rec).2.t ∧
        bound.fin (sphere.hit Real.sqrt s r ray_t rec).2.t < ray_t.max ∧
        (r.origin + (sphere.hit Real.sqrt s r ray_t rec).2.t * r.direction
          - s.center).length_squared = s.radius ^ 2) ∧
      ∀ t : ℝ, ray_t.min < bound.fin t → bound.fin t < ray_t.max →
        (r.origin + t * r.direction - s.center).length_squared = s.radius ^ 2 →
        (sphere.hit Real.sqrt s r ray_t rec).2.t ≤ t := by
  have ha := sphere.a_pos r hD
  have ht := sphere.hit_t Real.sqrt s r ray_t rec hit
  have hle := sphere.near_le_far s r ha
  have hin := (interval.surrounds_iff _ _).1 (sphere.hit_t_surrounded s r ray_t rec hit)
  have hfst := hit
  rw [sphere.hit_fst] at hfst
  simp only [Bool.and_eq_true, Bool.or_eq_true, decide_eq_true_eq] at hfst
  refine ⟨ht, hle, ⟨hin.1, hin.2, ?_⟩, ?_⟩
  · rw [sq]
    refine (sphere.on_sphere_iff_root s r _ ha).2 ⟨hfst.1, ?_⟩
    rw [ht]
    by_cases h1 : ray_t.surrounds (sphere.near_root Real.sqrt s r) = true
    · rw [if_pos h1]; exact Or.inl rfl
    · rw [if_neg h1]; exact Or.inr rfl
  · intro t h1 h2 h3
    rw [sq] at h3
    obtain ⟨_, h | h⟩ := (sphere.on_sphere_iff_root s r t ha).1 h3
    · have hs : ray_t.surrounds (sphere.near_root Real.sqrt s r) = true :=
        (interval.surrounds_iff _ _).2 (h ▸ ⟨h1, h2⟩)
      rw [ht, if_pos hs, h]
    · rw [ht, h]
      split
      · exact hle
      · exact le_refl _

/-- The sphere of main.cpp and the central camera ray over `(0.001, +∞)`: radius
`0.5 ≥ 0`, direction `(0,0,-1) ≠ 0`, and the equivalence holds there. -/
theorem sphere_hit_iff_meets_witness :
    (0 : ℝ) ≤ (demo_sphere : sphere ℝ).radius ∧
      (demo_ray : ray ℝ).direction ≠ ⟨0, 0, 0⟩ ∧
      ((sphere.hit Real.sqrt demo_sphere demo_ray camera.ray_t zero_record).1 = true ↔
        ∃ t : ℝ, (camera.ray_t : interval ℝ).min < bound.fin t ∧
          bound.fin t < (camera.ray_t : interval ℝ).max ∧
          ((demo_ray : ray ℝ).origin + t * (demo_ray : ray ℝ).direction
            - (demo_sphere : sphere ℝ).center).length_squared
            = (demo_sphere : sphere ℝ).radius ^ 2) :=
  ⟨by norm_num [demo_sphere], demo_ray_direction_ne,
    sphere_hit_iff_meets demo_sphere demo_ray camera.ray_t zero_record
      (by norm_num [demo_sphere]) demo_ray_direction_ne⟩

/-- The central camera ray hits the sphere of main.cpp over `(0.001, +∞)`, and
the recorded distance and point are as stated. -/
theorem sphere_hit_inside_interval_witness :
    (sphere.hit Real.sqrt demo_sphere demo_ray camera.ray_t (zero_record : hit_record ℝ)).1
        = true ∧
      (camera.ray_t : interval ℝ).min <
        bound.fin (sphere.hit Real.sqrt demo_sphere demo_ray camera.ray_t zero_record).2.t ∧
      bound.fin (sphere.hit Real.sqrt demo_sphere demo_ray camera.ray_t zero_record).2.t
        < (camera.ray_t : interval ℝ).max ∧
      (sphere.hit Real.sqrt demo_sphere demo_ray camera.ray_t zero_record).2.p =
        (demo_ray : ray ℝ).origin +
          (sphere.hit Real.sqrt demo_sphere demo_ray camera.ray_t zero_record).2.t
            * (demo_ray : ray ℝ).direction :=
  ⟨demo_hit zero_record,
    sphere_hit_inside_interval demo_sphere demo_ray camera.ray_t zero_record
      (demo_hit zero_record)⟩

/-- The central camera ray hits the sphere of main.cpp at `t = 0.5`, the nearer
root, and no meeting point inside `(0.001, +∞)` is nearer. -/
theorem sphere_hit_nearest_root_witness :
    (sphere.hit Real.sqrt demo_sphere demo_ray camera.ray_t (zero_record : hit_record ℝ)).1
        = true ∧
      (sphere.hit Real.sqrt demo_sphere demo_ray camera.ray_t (zero_record : hit_record ℝ)).2.t
        = 1 / 2 ∧
      ∀ t : ℝ, (camera.ray_t : interval ℝ).min < bound.fin t →
        bound.fin t < (camera.ray_t : interval ℝ).max →
        ((demo_ray : ray ℝ).origin + t * (demo_ray : ray ℝ).direction
          - (demo_sphere : sphere ℝ).center).length_squared
          = (demo_sphere : sphere ℝ).radius ^ 2 →
        (sphere.hit Real.sqrt demo_sphere demo_ray camera.ray_t zero_record).2.t ≤ t := by
  have h := sphere_hit_nearest_root demo_sphere demo_ray camera.ray_t zero_record
    (by norm_num [demo_sphere]) demo_ray_direction_ne (demo_hit zero_record)
  refine ⟨demo_hit zero_record, ?_, h.2.2.2⟩
  rw [h.1, demo_near_root]
  have hs : (camera.ray_t : interval ℝ).surrounds (1 / 2) = true := by
    rw [interval.surrounds_iff]
    exact ⟨(bound.fin_lt_fin _ _).2 (by norm_num), bound.fin_lt_infinity _⟩
  rw [if_pos hs]

/-! ## A ray aimed at the centre of the sphere -/

theorem hit_sphere_simple_eq (sqrt : ℝ → ℝ) (s : sphere ℝ) (r : ray ℝ) :
    hit_sphere_simple sqrt s.center s.radius r =
      if sphere.discriminant s r < 0 then -1 else sphere.near_root sqrt s r := rfl

/-- The locals of `sphere::hit` for a direction `k * (C - O)`, written with
`d = |C - O|`: `sqrt(discriminant) = k*d*r`, `|D| = k*d` and the nearer root is
`(d - r) / (k*d)`. -/
theorem sphere.toward_center (s : sphere ℝ) (r : ray ℝ) (k : ℝ) (hr : 0 ≤ s.radius)
    (hk : 0 < k) (hdir : r.direction = k * (s.center - r.origin))
    (hout : s.radius < (s.center - r.origin).length Real.sqrt) :
    sphere.discriminant s r = (k * (s.center - r.origin).length Real.sqrt * s.radius) ^ 2 ∧
      r.direction.length Real.sqrt = k * (s.center - r.origin).length Real.sqrt ∧
      sphere.near_root Real.sqrt s r =
        ((s.center - r.origin).length Real.sqrt - s.radius) /
          (k * (s.center - r.origin).length Real.sqrt) := by
  have hn0 : 0 ≤ (s.center - r.origin).length_squared := by
    unfold vec3.length_squared
    nlinarith [mul_self_nonneg (s.center - r.origin).x, mul_self_nonneg (s.center - r.origin).y,
      mul_self_nonneg (s.center - r.origin).z]
  have hd2 : (s.center - r.origin).length Real.sqrt * (s.center - r.origin).length Real.sqrt
      = (s.center - r.origin).length_squared := Real.mul_self_sqrt hn0
  have hd0 : 0 < (s.center - r.origin).length Real.sqrt := lt_of_le_of_lt hr hout
  have ha : sphere.a r = k ^ 2 * (s.center - r.origin).length_squared := by
    unfold sphere.a
    rw [hdir]
    simp only [vec3.length_squared, vec3.smul_eq]
    ring
  have hh : sphere.h s r = k * (s.center - r.origin).length_squared := by
    unfold sphere.h
    rw [hdir]
    simp only [vec3.length_squared, vec3.smul_eq, dot]
    ring
  have hc : sphere.c s r = (s.center - r.origin).length_squared - s.radius * s.radius := rfl
  generalize (s.center - r.origin).length Real.sqrt = d at *
  generalize (s.center - r.origin).length_squared = n at *
  subst hd2
  have hdisc : sphere.discriminant s r = (k * d * s.radius) ^ 2 := by
    unfold sphere.discriminant
    rw [ha, hh, hc]
    ring
  have hlen : r.direction.length Real.sqrt = k * d := by
    have h1 : r.direction.length Real.sqrt = Real.sqrt (sphere.a r) := rfl
    rw [h1, ha, show k ^ 2 * (d * d) = (k * d) ^ 2 by ring]
    exact Real.sqrt_sq (by positivity)
  refine ⟨hdisc, hlen, ?_⟩
  unfold sphere.near_root
  rw [hdisc, Real.sqrt_sq (by positivity), ha, hh]
  field_simp
  ring

theorem long_ray_values :
    sphere.discriminant (demo_sphere : sphere ℝ) long_ray = 1 ∧
      sphere.near_root Real.sqrt (demo_sphere : sphere ℝ) long_ray = 1 / 4 ∧
      ((demo_sphere : sphere ℝ).center - (long_ray : ray ℝ).origin).length Real.sqrt = 1 := by
  have hd : sphere.discriminant (demo_sphere : sphere ℝ) long_ray = 1 := by
    simp [sphere.discriminant, sphere.h, sphere.a, sphere.c, demo_sphere, long_ray, dot,
      vec3.length_squared, vec3.sub_eq]
    norm_num
  refine ⟨hd, ?_, ?_⟩
  · rw [sphere.near_root, hd, Real.sqrt_one]
    simp [sphere.h, sphere.a, demo_sphere, long_ray, dot, vec3.length_squared, vec3.sub_eq]
    norm_num
  · simp [vec3.length, demo_sphere, long_ray, vec3.length_squared, vec3.sub_eq]

theorem long_ray_hit (rec : hit_record ℝ) :
    (sphere.hit Real.sqrt demo_sphere long_ray positive_interval rec).1 = true ∧
      (sphere.hit Real.sqrt demo_sphere long_ray positive_interval rec).2.t = 1 / 4 := by
  obtain ⟨hd, hn, _⟩ := long_ray_values
  have hs : (positive_interval : interval ℝ).surrounds (1 / 4) = true := by
    rw [interval.surrounds_iff]
    exact ⟨(bound.fin_lt_fin _ _).2 (by norm_num), bound.fin_lt_infinity _⟩
  have hit : (sphere.hit Real.sqrt demo_sphere long_ray positive_interval rec).1 = true := by
    rw [sphere.hit_fst, hd, hn, hs]
    norm_num
  refine ⟨hit, ?_⟩
  rw [sphere.hit_t Real.sqrt _ _ _ _ hit, hn, if_pos hs]

/-- C4 as stated fails: the sphere of main.cpp (centre `(0,0,-1)`, radius `0.5`)
and the ray from `(0,0,0)` with direction `(0,0,-2)`, which points exactly at the
centre from outside, give the nearer root `0.25`, while
`distance(O, C) - r = 0.5`. -/
theorem toward_center_root_counterexample :
    (0 : ℝ) ≤ (demo_sphere : sphere ℝ).radius ∧
      (demo_sphere : sphere ℝ).radius <
        ((demo_sphere : sphere ℝ).center - (long_ray : ray ℝ).origin).length Real.sqrt ∧
      (long_ray : ray ℝ).direction =
        (2 : ℝ) * ((demo_sphere : sphere ℝ).center - (long_ray : ray ℝ).origin) ∧
      (sphere.hit Real.sqrt demo_sphere long_ray positive_interval
        (zero_record : hit_record ℝ)).1 = true ∧
      (sphere.hit Real.sqrt demo_sphere long_ray positive_interval
        (zero_record : hit_record ℝ)).2.t ≠
        ((demo_sphere : sphere ℝ).center - (long_ray : ray ℝ).origin).length Real.sqrt
          - (demo_sphere : sphere ℝ).radius ∧
      hit_sphere_simple Real.sqrt (demo_sphere : sphere ℝ).center
        (demo_sphere : sphere ℝ).radius long_ray ≠
        ((demo_sphere : sphere ℝ).center - (long_ray : ray ℝ).origin).length Real.sqrt
          - (demo_sphere : sphere ℝ).radius := by
  obtain ⟨hd, hn, hl⟩ := long_ray_values
  obtain ⟨hit, ht⟩ := long_ray_hit zero_record
  refine ⟨by norm_num [demo_sphere], ?_, ?_, hit, ?_, ?_⟩
  · rw [hl]; norm_num [demo_sphere]
  · simp [demo_sphere, long_ray, vec3.sub_eq, vec3.smul_eq]
  · rw [ht, hl]; norm_num [demo_sphere]
  · rw [hit_sphere_simple_eq, hd, hn, hl]; norm_num [demo_sphere]

/-- C4, amended: for a sphere of radius `r ≥ 0` and a ray whose origin lies
outside it and whose direction is a positive multiple of `C - O`, the
discriminant is non-negative, `sphere::hit` over `(0, +∞)` returns true,
`hit_sphere_simple` does not return the miss value `-1.0`, and the nearer root
both return is `(distance(O, C) - r) / |D|`: the length `t * |D|` travelled to
the hit point is `distance(O, C) - r`, and `t` itself is that distance when
`|D| = 1`. -/
theorem sphere_hit_toward_center (s : sphere ℝ) (r : ray ℝ) (rec : hit_record ℝ) (k : ℝ)
    (hr : 0 ≤ s.radius) (hk : 0 < k) (hdir : r.direction = k * (s.center - r.origin))
    (hout : s.radius < (s.center - r.origin).length Real.sqrt) :
    0 ≤ sphere.discriminant s r ∧
      (sphere.hit Real.sqrt s r positive_interval rec).1 = true ∧
      (sphere.hit Real.sqrt s r positive_interval rec).2.t =
        ((s.center - r.origin).length Real.sqrt - s.radius) / r.direction.length Real.sqrt ∧
      hit_sphere_simple Real.sqrt s.center s.radius r =
        ((s.center - r.origin).length Real.sqrt - s.radius) / r.direction.length Real.sqrt ∧
      hit_sphere_simple Real.sqrt s.center s.radius r ≠ -1 ∧
      (sphere.hit Real.sqrt s r positive_interval rec).2.t * r.direction.length Real.sqrt =
        (s.center - r.origin).length Real.sqrt - s.radius ∧
      (r.direction.length Real.sqrt = 1 →
        (sphere.hit Real.sqrt s r positive_interval rec).2.t =
          (s.center - r.origin).length Real.sqrt - s.radius) := by
  obtain ⟨hdisc, hlen, hnear⟩ := sphere.toward_center s r k hr hk hdir hout
  have hd0 : 0 < (s.center - r.origin).length Real.sqrt := lt_of_le_of_lt hr hout
  have hD0 : 0 < r.direction.length Real.sqrt := by rw [hlen]; positivity
  have hdn : 0 ≤ sphere.discriminant s r := by rw [hdisc]; positivity
  rw [← hlen] at hnear
  have hpos : 0 < sphere.near_root Real.sqrt s r := by
    rw [hnear]
    exact div_pos (by linarith) hD0
  have hs : (positive_interval : interval ℝ).surrounds (sphere.near_root Real.sqrt s r)
      = true := by
    rw [interval.surrounds_iff]
    exact ⟨(bound.fin_lt_fin _ _).2 hpos, bound.fin_lt_infinity _⟩
  have hit : (sphere.hit Real.sqrt s r positive_interval rec).1 = true := by
    rw [sphere.hit_fst, hs]
    simpa using hdn
  have ht : (sphere.hit Real.sqrt s r positive_interval rec).2.t =
      ((s.center - r.origin).length Real.sqrt - s.radius) / r.direction.length Real.sqrt := by
    rw [sphere.hit_t Real.sqrt _ _ _ _ hit, if_pos hs, hnear]
  have hsimple : hit_sphere_simple Real.sqrt s.center s.radius r =
      ((s.center - r.origin).length Real.sqrt - s.radius) / r.direction.length Real.sqrt := by
    rw [hit_sphere_simple_eq, if_neg (not_lt.2 hdn), hnear]
  refine ⟨hdn, hit, ht, hsimple, ?_, ?_, ?_⟩
  · rw [hsimple, ← hnear]
    linarith
  · rw [ht, div_mul_cancel₀ _ hD0.ne.symm]
  · intro h1
    rw [ht, h1, div_one]

/-- The ray from `(0,0,0)` with direction `(0,0,-2) = 2 * (C - O)` and the sphere
of main.cpp: the hit lies at distance `t * |D| = distance(O, C) - r`. -/
theorem sphere_hit_toward_center_witness :
    (0 : ℝ) ≤ (demo_sphere : sphere ℝ).radius ∧ (0 : ℝ) < 2 ∧
      (long_ray : ray ℝ).direction =
        (2 : ℝ) * ((demo_sphere : sphere ℝ).center - (long_ray : ray ℝ).origin) ∧
      (demo_sphere : sphere ℝ).radius <
        ((demo_sphere : sphere ℝ).center - (long_ray : ray ℝ).origin).length Real.sqrt ∧
      (sphere.hit Real.sqrt demo_sphere long_ray positive_interval
        (zero_record : hit_record ℝ)).2.t * (long_ray : ray ℝ).direction.length Real.sqrt =
        ((demo_sphere : sphere ℝ).center - (long_ray : ray ℝ).origin).length Real.sqrt
          - (demo_sphere : sphere ℝ).radius := by
  have h0 : (0 : ℝ) ≤ (demo_sphere : sphere ℝ).radius := by norm_num [demo_sphere]
  have h1 : (long_ray : ray ℝ).direction =
      (2 : ℝ) * ((demo_sphere : sphere ℝ).center - (long_ray : ray ℝ).origin) := by
    simp [demo_sphere, long_ray, vec3.sub_eq, vec3.smul_eq]
  have h2 : (demo_sphere : sphere ℝ).radius <
      ((demo_sphere : sphere ℝ).center - (long_ray : ray ℝ).origin).length Real.sqrt := by
    rw [long_ray_values.2.2]; norm_num [demo_sphere]
  exact ⟨h0, by norm_num, h1, h2,
    (sphere_hit_toward_center demo_sphere long_ray zero_record 2 h0 (by norm_num) h1 h2).2.2.2.2.2.1⟩

/-! ## The normal of the hit record -/

section face
variable {K : Type} [LinearOrderedField K]

theorem dot_comm (u v : vec3 K) : dot u v = dot v u := by
  simp only [dot]; ring

theorem dot_neg_left (u v : vec3 K) : dot (-u) v = -dot u v := by
  simp only [dot, vec3.neg_eq]; ring

theorem length_squared_neg (v : vec3 K) : (-v).length_squared = v.length_squared := by
  simp only [vec3.length_squared, vec3.neg_eq]; ring

theorem set_face_normal_front_face (rec : hit_record K) (r : ray K) (n : vec3 K) :
    (rec.set_face_normal r n).front_face = decide (dot r.direction n < 0) := rfl

theorem set_face_normal_normal (rec : hit_record K) (r : ray K) (n : vec3 K) :
    (rec.set_face_normal r n).normal =
      if (rec.set_face_normal r n).front_face = true then n else -n := by
  simp [hit_record.set_face_normal]

/-- After `set_face_normal` the stored normal has a strictly negative dot
product with the ray direction on a front face and a non-positive one on a back
face, where the outward normal has a non-negative one. -/
theorem set_face_normal_opposes (rec : hit_record K) (r : ray K) (n : vec3 K) :
    ((rec.set_face_normal r n).front_face = true →
        dot (rec.set_face_normal r n).normal r.direction < 0) ∧
      ((rec.set_face_normal r n).front_face = false →
        dot (rec.set_face_normal r n).normal r.direction ≤ 0 ∧ 0 ≤ dot n r.direction) := by
  rw [set_face_normal_normal, set_face_normal_front_face]
  by_cases h : dot r.direction n < 0
  · simp [h, dot_comm n r.direction]
  · have h2 : 0 ≤ dot r.direction n := not_lt.1 h
    simp [h, dot_neg_left, dot_comm n r.direction, h2]

end face

theorem inner_ray_hit (rec : hit_record ℝ) :
    (sphere.hit Real.sqrt demo_sphere inner_ray camera.ray_t rec).1 = true ∧
      (sphere.hit Real.sqrt demo_sphere inner_ray camera.ray_t rec).2.t = 1 / 2 := by
  have hd : sphere.discriminant (demo_sphere : sphere ℝ) inner_ray = 1 / 4 := by
    simp [sphere.discriminant, sphere.h, sphere.a, sphere.c, demo_sphere, inner_ray, dot,
      vec3.length_squared, vec3.sub_eq]
    norm_num
  have hn : sphere.near_root Real.sqrt (demo_sphere : sphere ℝ) inner_ray = -(1 / 2) := by
    rw [sphere.near_root, hd, sqrt_quarter]
    simp [sphere.h, sphere.a, demo_sphere, inner_ray, dot, vec3.length_squared, vec3.sub_eq]
  have hf : sphere.far_root Real.sqrt (demo_sphere : sphere ℝ) inner_ray = 1 / 2 := by
    rw [sphere.far_root, hd, sqrt_quarter]
    simp [sphere.h, sphere.a, demo_sphere, inner_ray, dot, vec3.length_squared, vec3.sub_eq]
  have hs1 : (camera.ray_t : interval ℝ).surrounds (-(1 / 2)) = false := by
    rw [← Bool.not_eq_true, interval.surrounds_iff]
    rintro ⟨h, _⟩
    have := (bound.fin_lt_fin _ _).1 h
    norm_num at this
  have hs2 : (camera.ray_t : interval ℝ).surrounds (1 / 2) = true := by
    rw [interval.surrounds_iff]
    exact ⟨(bound.fin_lt_fin _ _).2 (by norm_num), bound.fin_lt_infinity _⟩
  have hit : (sphere.hit Real.sqrt demo_sphere inner_ray camera.ray_t rec).1 = true := by
    rw [sphere.hit_fst, hd, hn, hf, hs1, hs2]
    norm_num
  refine ⟨hit, ?_⟩
  rw [sphere.hit_t Real.sqrt _ _ _ _ hit, hn, hf, hs1]
  rfl

theorem inner_ray_record :
    (sphere.hit Real.sqrt demo_sphere inner_ray camera.ray_t
        (zero_record : hit_record ℝ)).2.front_face = false ∧
      (sphere.hit Real.sqrt demo_sphere inner_ray camera.ray_t
        (zero_record : hit_record ℝ)).2.normal = ⟨0, 0, 1⟩ := by
  obtain ⟨hit, ht⟩ := inner_ray_hit zero_record
  rw [sphere.hit_snd Real.sqrt _ _ _ _ hit, ht]
  have ho : ((inner_ray : ray ℝ).at (1 / 2) - (demo_sphere : sphere ℝ).center)
      / (demo_sphere : sphere ℝ).radius = ⟨0, 0, -1⟩ := by
    simp [vec3.div_eq, vec3.sub_eq, ray.at_eq, inner_ray, demo_sphere]
  rw [ho]
  have hf : (hit_record.set_face_normal
      { (zero_record : hit_record ℝ) with
        t := 1 / 2, p := (inner_ray : ray ℝ).at (1 / 2), normal := ⟨0, 0, -1⟩ }
      inner_ray ⟨0, 0, -1⟩).front_face = false := by
    simp [set_face_normal_front_face, inner_ray, dot]
  refine ⟨hf, ?_⟩
  rw [set_face_normal_normal, hf]
  simp [vec3.neg_eq]

/-- The record of a successful `sphere::hit` has the flag and the normal that
`set_face_normal` derives from the outward normal `(p - center) / radius`. -/
theorem sphere.hit_face (s : sphere ℝ) (r : ray ℝ) (ray_t : interval ℝ) (rec : hit_record ℝ)
    (hit : (sphere.hit Real.sqrt s r ray_t rec).1 = true) :
    ∃ rec3 : hit_record ℝ, (sphere.hit Real.sqrt s r ray_t rec).2 =
      rec3.set_face_normal r
        ((r.at (sphere.hit Real.sqrt s r ray_t rec).2.t - s.center) / s.radius) :=
  ⟨_, sphere.hit_snd Real.sqrt s r ray_t rec hit⟩

/-- The point recorded by a successful `sphere::hit` lies on the sphere, for a
ray of non-zero direction. -/
theorem sphere.hit_on_sphere (s : sphere ℝ) (r : ray ℝ) (ray_t : interval ℝ)
    (rec : hit_record ℝ) (hD : r.direction ≠ ⟨0, 0, 0⟩)
    (hit : (sphere.hit Real.sqrt s r ray_t rec).1 = true) :
    (r.at (sphere.hit Real.sqrt s r ray_t rec).2.t - s.center).length_squared =
      s.radius * s.radius := by
  have ha := sphere.a_pos r hD
  have hfst := hit
  rw [sphere.hit_fst] at hfst
  simp only [Bool.and_eq_true, Bool.or_eq_true, decide_eq_true_eq] at hfst
  refine (sphere.on_sphere_iff_root s r _ ha).2 ⟨hfst.1, ?_⟩
  rw [sphere.hit_t Real.sqrt s r ray_t rec hit]
  by_cases h1 : ray_t.surrounds (sphere.near_root Real.sqrt s r) = true
  · rw [if_pos h1]; exact Or.inl rfl
  · rw [if_neg h1]; exact Or.inr rfl

/-- For a sphere of radius `r > 0` and a ray of non-zero direction, the normal
recorded by a successful `sphere::hit` has length 1. -/
theorem sphere.hit_normal_unit (s : sphere ℝ) (r : ray ℝ) (ray_t : interval ℝ)
    (rec : hit_record ℝ) (hr : 0 < s.radius) (hD : r.direction ≠ ⟨0, 0, 0⟩)
    (hit : (sphere.hit Real.sqrt s r ray_t rec).1 = true) :
    (sphere.hit Real.sqrt s r ray_t rec).2.normal.length Real.sqrt = 1 := by
  have hon := sphere.hit_on_sphere s r ray_t rec hD hit
  obtain ⟨rec3, h3⟩ := sphere.hit_face s r ray_t rec hit
  have hout : ((r.at (sphere.hit Real.sqrt s r ray_t rec).2.t - s.center)
      / s.radius).length_squared = 1 := by
    have : ((r.at (sphere.hit Real.sqrt s r ray_t rec).2.t - s.center)
        / s.radius).length_squared = (1 / s.radius) ^ 2 *
        (r.at (sphere.hit Real.sqrt s r ray_t rec).2.t - s.center).length_squared := by
      simp only [vec3.length_squared, vec3.div_eq]; ring
    rw [this, hon]
    field_simp
    ring
  have hn : (sphere.hit Real.sqrt s r ray_t rec).2.normal.length_squared = 1 := by
    conv_lhs => rw [h3, set_face_normal_normal]
    split
    · exact hout
    · rw [length_squared_neg]; exact hout
  unfold vec3.length
  rw [hn, Real.sqrt_one]

theorem point_sphere_hit (rec : hit_record ℝ) :
    (sphere.hit Real.sqrt point_sphere demo_ray camera.ray_t rec).1 = true ∧
      (sphere.hit Real.sqrt point_sphere demo_ray camera.ray_t rec).2.t = 1 := by
  have hd : sphere.discriminant (point_sphere : sphere ℝ) demo_ray = 0 := by
    simp [sphere.discriminant, sphere.h, sphere.a, sphere.c, point_sphere, sphere.make,
      demo_ray, dot, vec3.length_squared, vec3.sub_eq]
  have hn : sphere.near_root Real.sqrt (point_sphere : sphere ℝ) demo_ray = 1 := by
    rw [sphere.near_root, hd, Real.sqrt_zero]
    simp [sphere.h, sphere.a, point_sphere, sphere.make, demo_ray, dot, vec3.length_squared,
      vec3.sub_eq]
  have hs : (camera.ray_t : interval ℝ).surrounds 1 = true := by
    rw [interval.surrounds_iff]
    exact ⟨(bound.fin_lt_fin _ _).2 (by norm_num), bound.fin_lt_infinity _⟩
  have hit : (sphere.hit Real.sqrt point_sphere demo_ray camera.ray_t rec).1 = true := by
    rw [sphere.hit_fst, hd, hn, hs]
    norm_num
  refine ⟨hit, ?_⟩
  rw [sphere.hit_t Real.sqrt _ _ _ _ hit, hn, if_pos hs]

/-- C5 at its failing input: the constructor turns radius `0` (and any negative
radius) into a sphere of radius `0`; the ray from `(0,0,0)` with direction
`(0,0,-1)` through its centre `(0,0,-1)` is reported as a hit at `t = 1` over
`(0.001, +∞)`, and the recorded normal `(p - center) / 0` does not have
length 1. -/
theorem zero_radius_normal_not_unit :
    (point_sphere : sphere ℝ).radius = 0 ∧
      (sphere.make (⟨0, 0, -1⟩ : point3 ℝ) (-3)).radius = 0 ∧
      (sphere.hit Real.sqrt point_sphere demo_ray camera.ray_t
        (zero_record : hit_record ℝ)).1 = true ∧
      (sphere.hit Real.sqrt point_sphere demo_ray camera.ray_t
        (zero_record : hit_record ℝ)).2.t = 1 ∧
      (sphere.hit Real.sqrt point_sphere demo_ray camera.ray_t
        (zero_record : hit_record ℝ)).2.normal.length Real.sqrt ≠ 1 := by
  obtain ⟨hit, ht⟩ := point_sphere_hit zero_record
  refine ⟨by simp [point_sphere, sphere.make], by simp [sphere.make], hit, ht, ?_⟩
  rw [sphere.hit_snd Real.sqrt _ _ _ _ hit, ht, set_face_normal_normal,
    set_face_normal_front_face]
  simp [vec3.length, vec3.length_squared, vec3.div_eq, vec3.sub_eq, vec3.neg_eq, ray.at_eq,
    demo_ray, point_sphere, sphere.make, dot]

/-- C6 as stated fails: the ray that starts at the centre of the sphere of
main.cpp and runs down `-z` hits the sphere from the inside over
`(0.001, +∞)`; `front_face` is false, the stored normal is `(0,0,1)` and its dot
product with the ray direction `(0,0,-1)` is `-1`, not `≥ 0`. -/
theorem back_face_dot_counterexample :
    (sphere.hit Real.sqrt demo_sphere inner_ray camera.ray_t
        (zero_record : hit_record ℝ)).1 = true ∧
      (sphere.hit Real.sqrt demo_sphere inner_ray camera.ray_t
        (zero_record : hit_record ℝ)).2.front_face = false ∧
      dot (sphere.hit Real.sqrt demo_sphere inner_ray camera.ray_t
        (zero_record : hit_record ℝ)).2.normal (inner_ray : ray ℝ).direction = -1 ∧
      ¬ (0 ≤ dot (sphere.hit Real.sqrt demo_sphere inner_ray camera.ray_t
        (zero_record : hit_record ℝ)).2.normal (inner_ray : ray ℝ).direction) := by
  obtain ⟨hf, hn⟩ := inner_ray_record
  have hdot : dot (sphere.hit Real.sqrt demo_sphere inner_ray camera.ray_t
      (zero_record : hit_record ℝ)).2.normal (inner_ray : ray ℝ).direction = -1 := by
    rw [hn]; simp [dot, inner_ray]
  refine ⟨(inner_ray_hit zero_record).1, hf, hdot, ?_⟩
  rw [hdot]; norm_num

/-- C6, amended: for every record produced by `set_face_normal`, and for the
record of every successful `sphere::hit`, the stored normal satisfies
`dot(normal, ray.direction) < 0` when `front_face` is true and
`dot(normal, ray.direction) ≤ 0` when `front_face` is false; on a back face it is
the outward normal passed to `set_face_normal` that has
`dot(outward_normal, ray.direction) ≥ 0`. -/
theorem face_normal_dot_sign (rec : hit_record ℝ) (r : ray ℝ) (n : vec3 ℝ) (s : sphere ℝ)
    (ray_t : interval ℝ) :
    (((rec.set_face_normal r n).front_face = true →
          dot (rec.set_face_normal r n).normal r.direction < 0) ∧
        ((rec.set_face_normal r n).front_face = false →
          dot (rec.set_face_normal r n).normal r.direction ≤ 0 ∧ 0 ≤ dot n r.direction)) ∧
      ((sphere.hit Real.sqrt s r ray_t rec).1 = true →
        ((sphere.hit Real.sqrt s r ray_t rec).2.front_face = true →
          dot (sphere.hit Real.sqrt s r ray_t rec).2.normal r.direction < 0) ∧
        ((sphere.hit Real.sqrt s r ray_t rec).2.front_face = false →
          dot (sphere.hit Real.sqrt s r ray_t rec).2.normal r.direction ≤ 0 ∧
          0 ≤ dot ((r.at (sphere.hit Real.sqrt s r ray_t rec).2.t - s.center) / s.radius)
            r.direction)) := by
  refine ⟨set_face_normal_opposes rec r n, fun hit => ?_⟩
  obtain ⟨rec3, h3⟩ := sphere.hit_face s r ray_t rec hit
  have h := set_face_normal_opposes rec3 r
    ((r.at (sphere.hit Real.sqrt s r ray_t rec).2.t - s.center) / s.radius)
  rw [← h3] at h
  exact h

/-- The ray leaving the sphere of main.cpp from its centre: a back face, with the
stored normal against the ray direction. -/
theorem face_normal_dot_sign_witness :
    (sphere.hit Real.sqrt demo_sphere inner_ray camera.ray_t
        (zero_record : hit_record ℝ)).1 = true ∧
      (sphere.hit Real.sqrt demo_sphere inner_ray camera.ray_t
        (zero_record : hit_record ℝ)).2.front_face = false ∧
      dot (sphere.hit Real.sqrt demo_sphere inner_ray camera.ray_t
        (zero_record : hit_record ℝ)).2.normal (inner_ray : ray ℝ).direction ≤ 0 := by
  have h := (face_normal_dot_sign zero_record inner_ray ⟨0, 0, 1⟩ demo_sphere camera.ray_t).2
    (inner_ray_hit zero_record).1
  exact ⟨(inner_ray_hit zero_record).1, inner_ray_record.1, (h.2 inner_ray_record.1).1⟩

/-- C7: for every ray and every outward normal `n`, after `set_face_normal`
`front_face` is true exactly when `dot(ray.direction, n) < 0`, the stored normal
is `n` if `front_face` and `-n` otherwise, and in both cases
`dot(normal, ray.direction) ≤ 0`. -/
theorem set_face_normal_opposes_ray (rec : hit_record ℝ) (r : ray ℝ) (n : vec3 ℝ) :
    ((rec.set_face_normal r n).front_face = true ↔ dot r.direction n < 0) ∧
      (rec.set_face_normal r n).normal =
        (if (rec.set_face_normal r n).front_face = true then n else -n) ∧
      dot (rec.set_face_normal r n).normal r.direction ≤ 0 := by
  refine ⟨by simp [set_face_normal_front_face], set_face_normal_normal rec r n, ?_⟩
  have h := set_face_normal_opposes rec r n
  cases hf : (rec.set_face_normal r n).front_face
  · exact (h.2 hf).1
  · exact (h.1 hf).le

/-! ## camera::ray_color -/

section radiance
variable {K : Type} [LinearOrderedField K]

theorem camera.run_nonpos (sqrt : K → K) (world : hittable K) (scatter : scatter_fn K)
    (rec0 : hit_record K) (r : ray K) (depth : Int) (h : depth ≤ 0) :
    camera.ray_color_run sqrt world scatter rec0 r depth = (black, []) := by
  rw [camera.ray_color_run, if_pos h]

theorem camera.run_miss (sqrt : K → K) (world : hittable K) (scatter : scatter_fn K)
    (rec0 : hit_record K) (r : ray K) (depth : Int) (h : 0 < depth)
    (hw : (world r camera.ray_t rec0).1 = false) :
    camera.ray_color_run sqrt world scatter rec0 r depth =
      (camera.background sqrt r, [(r, depth)]) := by
  rw [camera.ray_color_run, if_neg (not_le.2 h)]
  split
  · rename_i heq
    rw [heq] at hw
    exact absurd hw (by simp)
  · rfl

theorem camera.run_absorb (sqrt : K → K) (world : hittable K) (scatter : scatter_fn K)
    (rec0 : hit_record K) (r : ray K) (depth : Int) (rec1 : hit_record K) (h : 0 < depth)
    (hw : world r camera.ray_t rec0 = (true, rec1)) (hs : scatter r rec1 = none) :
    camera.ray_color_run sqrt world scatter rec0 r depth = (black, [(r, depth)]) := by
  rw [camera.ray_color_run, if_neg (not_le.2 h), hw]
  simp only [hs]

theorem camera.run_scatter (sqrt : K → K) (world : hittable K) (scatter : scatter_fn K)
    (rec0 : hit_record K) (r : ray K) (depth : Int) (rec1 : hit_record K)
    (attenuation : color K) (scattered : ray K) (h : 0 < depth)
    (hw : world r camera.ray_t rec0 = (true, rec1))
    (hs : scatter r rec1 = some (attenuation, scattered)) :
    camera.ray_color_run sqrt world scatter rec0 r depth =
      (attenuation * (camera.ray_color_run sqrt world scatter rec0 scattered (depth - 1)).1,
        (r, depth) :: (camera.ray_color_run sqrt world scatter rec0 scattered (depth - 1)).2) := by
  rw [camera.ray_color_run, if_neg (not_le.2 h), hw]
  simp only [hs]

/-- The trace of `camera::ray_color` lists activations of depth `depth`,
`depth - 1`, ..., each positive. -/
theorem camera.run_trace (sqrt : K → K) (world : hittable K) (scatter : scatter_fn K)
    (rec0 : hit_record K) (n : Nat) :
    ∀ (r : ray K) (depth : Int), depth.toNat = n →
      (camera.ray_color_run sqrt world scatter rec0 r depth).2.length ≤ n ∧
      ∀ i (hi : i < (camera.ray_color_run sqrt world scatter rec0 r depth).2.length),
        ((camera.ray_color_run sqrt world scatter rec0 r depth).2.get ⟨i, hi⟩).2 = depth - i ∧
          0 < depth - i := by
  induction n with
  | zero =>
    intro r depth hd
    have h0 : depth ≤ 0 := by omega
    rw [camera.run_nonpos sqrt world scatter rec0 r depth h0]
    exact ⟨le_refl _, fun i hi => absurd hi (by simp)⟩
  | succ n ih =>
    intro r depth hd
    have hpos : 0 < depth := by omega
    cases hw : world r camera.ray_t rec0 with
    | mk b rec1 =>
      cases b with
      | false =>
        rw [camera.run_miss sqrt world scatter rec0 r depth hpos (by rw [hw])]
        refine ⟨by simp, fun i hi => ?_⟩
        have hi0 : i = 0 := by simpa using hi
        subst hi0
        simpa using hpos
      | true =>
        cases hs : scatter r rec1 with
        | none =>
          rw [camera.run_absorb sqrt world scatter rec0 r depth rec1 hpos hw hs]
          refine ⟨by simp, fun i hi => ?_⟩
          have hi0 : i = 0 := by simpa using hi
          subst hi0
          simpa using hpos
        | some pr =>
          obtain ⟨attenuation, scattered⟩ := pr
          rw [camera.run_scatter sqrt world scatter rec0 r depth rec1 attenuation scattered
            hpos hw hs]
          obtain ⟨hlen, hget⟩ := ih scattered (depth - 1) (by omega)
          refine ⟨by simpa using hlen, fun i hi => ?_⟩
          cases i with
          | zero => simpa using hpos
          | succ j =>
            have hj : j < (camera.ray_color_run sqrt world scatter rec0 scattered
                (depth - 1)).2.length := by simpa using hi
            have := hget j hj
            simp only [List.get_eq_getElem, List.getElem_cons_succ] at this ⊢
            constructor
            · rw [this.1]; push_cast; ring
            · have := this.2; push_cast; omega

theorem vec3.mul_black (A : color K) : A * (black : color K) = black := by
  simp [vec3.mul_eq, black]

theorem vec3.mul_assoc3 (A B C : color K) : A * (B * C) = A * B * C := by
  simp only [vec3.mul_eq]
  rw [vec3.ext_iff3]
  exact ⟨by ring, by ring, by ring⟩

theorem vec3.one_mul3 (C : color K) : (⟨1, 1, 1⟩ : color K) * C = C := by
  simp [vec3.mul_eq]

theorem color_product_cons (A : color K) (As : List (color K)) :
    color_product (A :: As) = A * color_product As := rfl

/-- The colour `camera::ray_color` returns along a path of scattering hits whose
last ray misses the world: the product of the attenuations times the background
when the depth exceeds the number of hits, black otherwise. -/
theorem camera.run_path_miss (sqrt : K → K) (world : hittable K) (scatter : scatter_fn K)
    (rec0 : hit_record K) (r : ray K) (As : List (color K)) (r' : ray K)
    (hpath : camera.bounces world scatter rec0 r As r')
    (hmiss : (world r' camera.ray_t rec0).1 = false) :
    ∀ depth : Int,
      (camera.ray_color_run sqrt world scatter rec0 r depth).1 =
        if (As.length : Int) < depth then color_product As * camera.background sqrt r'
        else black := by
  induction hpath with
  | done r =>
    intro depth
    by_cases h : 0 < depth
    · rw [camera.run_miss sqrt world scatter rec0 r depth h hmiss]
      simp [h, color_product, vec3.one_mul3]
    · rw [camera.run_nonpos sqrt world scatter rec0 r depth (not_lt.1 h)]
      simp [h]
  | step r rec1 attenuation scattered As r' hw hs _ ih =>
    intro depth
    by_cases h : 0 < depth
    · rw [camera.run_scatter sqrt world scatter rec0 r depth rec1 attenuation scattered h hw hs]
      simp only [ih hmiss (depth - 1), List.length_cons, Nat.cast_add, Nat.cast_one]
      by_cases h2 : (As.length : Int) < depth - 1
      · rw [if_pos h2, if_pos (by omega), color_product_cons, vec3.mul_assoc3]
      · rw [if_neg h2, if_neg (by omega), vec3.mul_black]
    · rw [camera.run_nonpos sqrt world scatter rec0 r depth (not_lt.1 h)]
      rw [if_neg]
      simp only [List.length_cons, Nat.cast_add, Nat.cast_one]
      omega

/-- The colour `camera::ray_color` returns along a path of scattering hits that
ends in a hit whose material does not scatter: black. -/
theorem camera.run_path_absorb (sqrt : K → K) (world : hittable K) (scatter : scatter_fn K)
    (rec0 : hit_record K) (r : ray K) (As : List (color K)) (r' : ray K)
    (hpath : camera.bounces world scatter rec0 r As r') (rec1 : hit_record K)
    (hw : world r' camera.ray_t rec0 = (true, rec1)) (hs : scatter r' rec1 = none) :
    ∀ depth : Int, (camera.ray_color_run sqrt world scatter rec0 r depth).1 = black := by
  induction hpath with
  | done r =>
    intro depth
    by_cases h : 0 < depth
    · rw [camera.run_absorb sqrt world scatter rec0 r depth rec1 h hw hs]
    · rw [camera.run_nonpos sqrt world scatter rec0 r depth (not_lt.1 h)]
  | step r rec2 attenuation scattered As r' hw2 hs2 _ ih =>
    intro depth
    by_cases h : 0 < depth
    · rw [camera.run_scatter sqrt world scatter rec0 r depth rec2 attenuation scattered h
        hw2 hs2]
      simp only [ih hw hs (depth - 1), vec3.mul_black]
    · rw [camera.run_nonpos sqrt world scatter rec0 r depth (not_lt.1 h)]

end radiance

/-- C8: `camera::ray_color` with `depth ≤ 0`, in particular `depth = 0`, returns
black `(0,0,0)` for every ray and every world, and makes no call of
`world.hit`. -/
theorem ray_color_depth_exhausted (world : hittable ℝ) (scatter : scatter_fn ℝ)
    (rec0 : hit_record ℝ) (r : ray ℝ) (depth : Int) (h : depth ≤ 0) :
    camera.ray_color Real.sqrt world scatter rec0 r depth = ⟨0, 0, 0⟩ ∧
      camera.ray_color_queries Real.sqrt world scatter rec0 r depth = [] := by
  unfold camera.ray_color camera.ray_color_queries
  rw [camera.run_nonpos Real.sqrt world scatter rec0 r depth h]
  exact ⟨rfl, rfl⟩

/-- The central camera ray at `depth = 0` in the scene of main.cpp: black, and no
call of `world.hit`. -/
theorem ray_color_depth_exhausted_witness :
    (0 : Int) ≤ 0 ∧
      camera.ray_color Real.sqrt (sphere.hit Real.sqrt demo_sphere) half_up zero_record
        demo_ray 0 = ⟨0, 0, 0⟩ ∧
      camera.ray_color_queries Real.sqrt (sphere.hit Real.sqrt demo_sphere) half_up zero_record
        demo_ray 0 = [] :=
  ⟨le_refl 0,
    ray_color_depth_exhausted (sphere.hit Real.sqrt demo_sphere) half_up zero_record demo_ray 0
      (le_refl 0)⟩

/-- C9: `camera::ray_color` is a total function of the ray, the integer depth
and arbitrary world and material functions; its recursion descends on `depth`:
the `i`-th activation that calls `world.hit` runs at depth `depth - i > 0`, so a
call with depth `d` makes at most `max(d, 0)` calls of `world.hit`, and the call
`ray_color(r, max_depth, world)` of `render` at most `max(max_depth, 0)`. -/
theorem ray_color_queries_bounded (cam : camera ℝ) (world : hittable ℝ)
    (scatter : scatter_fn ℝ) (rec0 : hit_record ℝ) (r : ray ℝ) (depth : Int) :
    ((camera.ray_color_queries Real.sqrt world scatter rec0 r depth).length : Int)
        ≤ max depth 0 ∧
      (∀ i (hi : i < (camera.ray_color_queries Real.sqrt world scatter rec0 r depth).length),
        ((camera.ray_color_queries Real.sqrt world scatter rec0 r depth).get ⟨i, hi⟩).2
          = depth - i ∧ 0 < depth - i) ∧
      (((cam.render_sample Real.sqrt world scatter rec0 r).2.length : Int)
        ≤ max cam.max_depth 0) := by
  have h1 := camera.run_trace Real.sqrt world scatter rec0 depth.toNat r depth rfl
  have h2 := camera.run_trace Real.sqrt world scatter rec0 cam.max_depth.toNat r
    cam.max_depth rfl
  refine ⟨?_, h1.2, ?_⟩
  · have := h1.1
    unfold camera.ray_color_queries
    omega
  · have := h2.1
    unfold camera.render_sample
    omega

/-- C10: if the path starting at ray `r` makes `k` consecutive hits whose
materials scatter with attenuations `A1..Ak` and the next ray misses the world,
then `camera::ray_color(r, depth, world)` is the component-wise product
`A1*...*Ak` times the background colour of that last ray for every `depth > k`,
and black for every `depth ≤ k`; if instead the next ray hits a material that
reports no scatter, the result is black for every depth. -/
theorem ray_color_closed_form (world : hittable ℝ) (scatter : scatter_fn ℝ)
    (rec0 : hit_record ℝ) (r : ray ℝ) (As : List (color ℝ)) (r' : ray ℝ)
    (hpath : camera.bounces world scatter rec0 r As r') :
    ((world r' camera.ray_t rec0).1 = false →
        (∀ depth : Int, (As.length : Int) < depth →
          camera.ray_color Real.sqrt world scatter rec0 r depth =
            color_product As * camera.background Real.sqrt r') ∧
        (∀ depth : Int, depth ≤ (As.length : Int) →
          camera.ray_color Real.sqrt world scatter rec0 r depth = ⟨0, 0, 0⟩)) ∧
      (∀ rec1 : hit_record ℝ, world r' camera.ray_t rec0 = (true, rec1) →
        scatter r' rec1 = none →
        ∀ depth : Int, camera.ray_color Real.sqrt world scatter rec0 r depth = ⟨0, 0, 0⟩) := by
  refine ⟨fun hmiss => ⟨fun depth hd => ?_, fun depth hd => ?_⟩, fun rec1 hw hs depth => ?_⟩
  · unfold camera.ray_color
    rw [camera.run_path_miss Real.sqrt world scatter rec0 r As r' hpath hmiss depth, if_pos hd]
  · unfold camera.ray_color
    rw [camera.run_path_miss Real.sqrt world scatter rec0 r As r' hpath hmiss depth,
      if_neg (not_lt.2 hd)]
    rfl
  · unfold camera.ray_color
    rw [camera.run_path_absorb Real.sqrt world scatter rec0 r As r' hpath rec1 hw hs depth]
    rfl

theorem demo_hit_record :
    sphere.hit Real.sqrt demo_sphere demo_ray camera.ray_t (zero_record : hit_record ℝ) =
        (true, (sphere.hit Real.sqrt demo_sphere demo_ray camera.ray_t
          (zero_record : hit_record ℝ)).2) ∧
      (sphere.hit Real.sqrt demo_sphere demo_ray camera.ray_t
        (zero_record : hit_record ℝ)).2.p = ⟨0, 0, -(1 / 2)⟩ := by
  have hit := demo_hit zero_record
  refine ⟨Prod.ext hit rfl, ?_⟩
  have hs : (camera.ray_t : interval ℝ).surrounds (1 / 2) = true := by
    rw [interval.surrounds_iff]
    exact ⟨(bound.fin_lt_fin _ _).2 (by norm_num), bound.fin_lt_infinity _⟩
  have ht : (sphere.hit Real.sqrt demo_sphere demo_ray camera.ray_t
      (zero_record : hit_record ℝ)).2.t = 1 / 2 := by
    rw [sphere.hit_t Real.sqrt _ _ _ _ hit, demo_near_root, if_pos hs]
  have hp : (sphere.hit Real.sqrt demo_sphere demo_ray camera.ray_t
      (zero_record : hit_record ℝ)).2.p = (demo_ray : ray ℝ).at (sphere.hit Real.sqrt
        demo_sphere demo_ray camera.ray_t (zero_record : hit_record ℝ)).2.t := by
    conv_lhs => rw [sphere.hit_snd Real.sqrt _ _ _ _ hit]
    rfl
  rw [hp, ht]
  simp [ray.at_eq, demo_ray]

theorem up_ray_miss (rec : hit_record ℝ) :
    (sphere.hit Real.sqrt demo_sphere up_ray camera.ray_t rec).1 = false := by
  have hd : sphere.discriminant (demo_sphere : sphere ℝ) up_ray = 0 := by
    simp [sphere.discriminant, sphere.h, sphere.a, sphere.c, demo_sphere, up_ray, dot,
      vec3.length_squared, vec3.sub_eq]
    norm_num
  have hh : sphere.h (demo_sphere : sphere ℝ) up_ray = 0 := by
    simp [sphere.h, demo_sphere, up_ray, dot, vec3.sub_eq]
  have hn : sphere.near_root Real.sqrt (demo_sphere : sphere ℝ) up_ray = 0 := by
    rw [sphere.near_root, hd, Real.sqrt_zero, hh]; simp
  have hf : sphere.far_root Real.sqrt (demo_sphere : sphere ℝ) up_ray = 0 := by
    rw [sphere.far_root, hd, Real.sqrt_zero, hh]; simp
  have hs : (camera.ray_t : interval ℝ).surrounds 0 = false := by
    rw [← Bool.not_eq_true, interval.surrounds_iff]
    rintro ⟨h, _⟩
    have := (bound.fin_lt_fin _ _).1 h
    norm_num at this
  rw [sphere.hit_fst, hn, hf, hs]
  simp

theorem up_ray_background : camera.background Real.sqrt (up_ray : ray ℝ) = ⟨1 / 2, 7 / 10, 1⟩ := by
  simp [camera.background, unit_vector, vec3.length, vec3.length_squared, up_ray, vec3.div,
    vec3.smul, vec3.smul_eq, vec3.add_eq]
  norm_num

/-- The central camera ray in the scene of main.cpp with the material `half_up`:
one scattering hit with attenuation `(0.5,0.5,0.5)`, then the ray going up from
`(0,0,-0.5)` misses; the colour is `(0.25, 0.35, 0.5)` at depth 2 and black at
depth 1. -/
theorem ray_color_closed_form_witness :
    camera.bounces (sphere.hit Real.sqrt demo_sphere) half_up (zero_record : hit_record ℝ)
        demo_ray [⟨1 / 2, 1 / 2, 1 / 2⟩] up_ray ∧
      (sphere.hit Real.sqrt demo_sphere up_ray camera.ray_t
        (zero_record : hit_record ℝ)).1 = false ∧
      camera.ray_color Real.sqrt (sphere.hit Real.sqrt demo_sphere) half_up zero_record
        demo_ray 2 = ⟨1 / 4, 7 / 20, 1 / 2⟩ ∧
      camera.ray_color Real.sqrt (sphere.hit Real.sqrt demo_sphere) half_up zero_record
        demo_ray 1 = ⟨0, 0, 0⟩ := by
  have hpath : camera.bounces (sphere.hit Real.sqrt demo_sphere) half_up
      (zero_record : hit_record ℝ) demo_ray [⟨1 / 2, 1 / 2, 1 / 2⟩] up_ray := by
    refine camera.bounces.step demo_ray _ _ up_ray [] up_ray demo_hit_record.1 ?_
      (camera.bounces.done up_ray)
    simp only [half_up, demo_hit_record.2, up_ray]
  have hmiss := up_ray_miss zero_record
  have h := (ray_color_closed_form (sphere.hit Real.sqrt demo_sphere) half_up zero_record
    demo_ray [⟨1 / 2, 1 / 2, 1 / 2⟩] up_ray hpath).1 hmiss
  refine ⟨hpath, hmiss, ?_, h.2 1 (by simp)⟩
  rw [h.1 2 (by simp), up_ray_background]
  simp [color_product, vec3.mul_eq]
  norm_num

/-! ## The background gradient and the normal shading of main.cpp -/

theorem main_ray_color_miss (sqrt : ℝ → ℝ) (r : ray ℝ)
    (h : ¬ 0 < hit_sphere_simple sqrt ⟨0, 0, -1⟩ (1 / 2) r) :
    RT.ray_color sqrt r = camera.background sqrt r := by
  unfold RT.ray_color camera.background
  simp only [gt_iff_lt, if_neg h]

theorem background_eq (r : ray ℝ) :
    camera.background Real.sqrt r =
      (1 - 1 / 2 * ((unit_vector Real.sqrt r.direction).y + 1)) * (⟨1, 1, 1⟩ : color ℝ)
        + (1 / 2 * ((unit_vector Real.sqrt r.direction).y + 1)) * (⟨1 / 2, 7 / 10, 1⟩ : color ℝ) :=
  rfl

theorem background_up (r : ray ℝ) (h : r.direction = ⟨0, 1, 0⟩) :
    camera.background Real.sqrt r = ⟨1 / 2, 7 / 10, 1⟩ := by
  simp [camera.background, unit_vector, vec3.length, vec3.length_squared, h, vec3.div,
    vec3.smul, vec3.smul_eq, vec3.add_eq]
  norm_num

theorem background_down (r : ray ℝ) (h : r.direction = ⟨0, -1, 0⟩) :
    camera.background Real.sqrt r = ⟨1, 1, 1⟩ := by
  simp [camera.background, unit_vector, vec3.length, vec3.length_squared, h, vec3.div,
    vec3.smul, vec3.smul_eq, vec3.add_eq]

/-- C11: a ray that hits nothing is coloured by the gradient
`(1-a)*(1,1,1) + a*(0.5,0.7,1.0)` with `a = 0.5*(y+1)`, `y` the vertical
component of the normalized direction, both by `camera::ray_color` at a depth
`> 0` and by the `ray_color` of main.cpp; direction `(0,1,0)` gives exactly
`(0.5,0.7,1.0)` and direction `(0,-1,0)` exactly `(1,1,1)`. -/
theorem background_gradient_on_miss (world : hittable ℝ) (scatter : scatter_fn ℝ)
    (rec0 : hit_record ℝ) (r : ray ℝ) (depth : Int) (hd : 0 < depth)
    (hmiss : (world r camera.ray_t rec0).1 = false) :
    camera.ray_color Real.sqrt world scatter rec0 r depth =
        (1 - 1 / 2 * ((unit_vector Real.sqrt r.direction).y + 1)) * (⟨1, 1, 1⟩ : color ℝ)
          + (1 / 2 * ((unit_vector Real.sqrt r.direction).y + 1))
            * (⟨1 / 2, 7 / 10, 1⟩ : color ℝ) ∧
      (r.direction = ⟨0, 1, 0⟩ →
        camera.ray_color Real.sqrt world scatter rec0 r depth = ⟨1 / 2, 7 / 10, 1⟩) ∧
      (r.direction = ⟨0, -1, 0⟩ →
        camera.ray_color Real.sqrt world scatter rec0 r depth = ⟨1, 1, 1⟩) ∧
      (¬ 0 < hit_sphere_simple Real.sqrt ⟨0, 0, -1⟩ (1 / 2) r →
        RT.ray_color Real.sqrt r =
            (1 - 1 / 2 * ((unit_vector Real.sqrt r.direction).y + 1)) * (⟨1, 1, 1⟩ : color ℝ)
              + (1 / 2 * ((unit_vector Real.sqrt r.direction).y + 1))
                * (⟨1 / 2, 7 / 10, 1⟩ : color ℝ) ∧
          (r.direction = ⟨0, 1, 0⟩ → RT.ray_color Real.sqrt r = ⟨1 / 2, 7 / 10, 1⟩) ∧
          (r.direction = ⟨0, -1, 0⟩ → RT.ray_color Real.sqrt r = ⟨1, 1, 1⟩)) := by
  have hc : camera.ray_color Real.sqrt world scatter rec0 r depth
      = camera.background Real.sqrt r := by
    unfold camera.ray_color
    rw [camera.run_miss Real.sqrt world scatter rec0 r depth hd hmiss]
  refine ⟨hc.trans (background_eq r), fun h => hc.trans (background_up r h),
    fun h => hc.trans (background_down r h), fun hm => ?_⟩
  have hmain := main_ray_color_miss Real.sqrt r hm
  exact ⟨hmain.trans (background_eq r), fun h => hmain.trans (background_up r h),
    fun h => hmain.trans (background_down r h)⟩

theorem up_ray_simple_miss :
    ¬ 0 < hit_sphere_simple Real.sqrt (⟨0, 0, -1⟩ : point3 ℝ) (1 / 2) up_ray := by
  have hd : sphere.discriminant (demo_sphere : sphere ℝ) up_ray = 0 := by
    simp [sphere.discriminant, sphere.h, sphere.a, sphere.c, demo_sphere, up_ray, dot,
      vec3.length_squared, vec3.sub_eq]
    norm_num
  have hh : sphere.h (demo_sphere : sphere ℝ) up_ray = 0 := by
    simp [sphere.h, demo_sphere, up_ray, dot, vec3.sub_eq]
  have he := hit_sphere_simple_eq Real.sqrt (demo_sphere : sphere ℝ) up_ray
  rw [hd, if_neg (lt_irrefl 0), sphere.near_root, hd, Real.sqrt_zero, hh] at he
  have he2 : hit_sphere_simple Real.sqrt (⟨0, 0, -1⟩ : point3 ℝ) (1 / 2) up_ray = 0 := by
    rw [sub_zero, zero_div] at he
    exact he
  rw [he2]
  exact lt_irrefl 0

/-- The ray going straight up from `(0,0,-0.5)` misses the sphere of main.cpp:
`camera::ray_color` at depth 1 and the `ray_color` of main.cpp both return the
top colour `(0.5,0.7,1.0)`. -/
theorem background_gradient_on_miss_witness :
    (0 : Int) < 1 ∧
      (sphere.hit Real.sqrt demo_sphere up_ray camera.ray_t (zero_record : hit_record ℝ)).1
        = false ∧
      camera.ray_color Real.sqrt (sphere.hit Real.sqrt demo_sphere) absorber zero_record
        up_ray 1 = ⟨1 / 2, 7 / 10, 1⟩ ∧
      RT.ray_color Real.sqrt (up_ray : ray ℝ) = ⟨1 / 2, 7 / 10, 1⟩ := by
  have h := background_gradient_on_miss (sphere.hit Real.sqrt demo_sphere) absorber zero_record
    up_ray 1 (by norm_num) (up_ray_miss zero_record)
  exact ⟨by norm_num, up_ray_miss zero_record, h.2.1 rfl, (h.2.2.2 up_ray_simple_miss).2.1 rfl⟩

/-- C12: with the sphere at `(0,0,-1)` of radius `0.5`, the ray from the origin
with direction `(0,0,-1)` has the nearer root `t = 0.5` and the hit point
`(0,0,-0.5)`; the unit normal there is `N = (0,0,1)` and the `ray_color` of
main.cpp returns `0.5*(N+1) = (0.5, 0.5, 1.0)`. -/
theorem center_ray_normal_color :
    hit_sphere_simple Real.sqrt (⟨0, 0, -1⟩ : point3 ℝ) (1 / 2) demo_ray = 1 / 2 ∧
      (demo_ray : ray ℝ).at (1 / 2) = ⟨0, 0, -(1 / 2)⟩ ∧
      unit_vector Real.sqrt ((demo_ray : ray ℝ).at (1 / 2) - (⟨0, 0, -1⟩ : vec3 ℝ))
        = ⟨0, 0, 1⟩ ∧
      RT.ray_color Real.sqrt (demo_ray : ray ℝ) = ⟨1 / 2, 1 / 2, 1⟩ := by
  have ht : hit_sphere_simple Real.sqrt (⟨0, 0, -1⟩ : point3 ℝ) (1 / 2) demo_ray = 1 / 2 := by
    have he := hit_sphere_simple_eq Real.sqrt (demo_sphere : sphere ℝ) demo_ray
    rw [demo_discriminant, if_neg (by norm_num), demo_near_root] at he
    exact he
  have hp : (demo_ray : ray ℝ).at (1 / 2) = ⟨0, 0, -(1 / 2)⟩ := by
    simp [ray.at_eq, demo_ray]
  have hN : unit_vector Real.sqrt ((demo_ray : ray ℝ).at (1 / 2) - (⟨0, 0, -1⟩ : vec3 ℝ))
      = ⟨0, 0, 1⟩ := by
    rw [hp]
    have hl : ((⟨0, 0, -(1 / 2)⟩ : vec3 ℝ) - (⟨0, 0, -1⟩ : vec3 ℝ)).length Real.sqrt = 1 / 2 := by
      have hsq : ((⟨0, 0, -(1 / 2)⟩ : vec3 ℝ) - (⟨0, 0, -1⟩ : vec3 ℝ)).length_squared
          = 1 / 4 := by
        simp only [vec3.length_squared, vec3.sub_eq]
        norm_num
      unfold vec3.length
      rw [hsq, sqrt_quarter]
    unfold unit_vector
    rw [hl]
    simp [vec3.div, vec3.smul, vec3.sub_eq]
    norm_num
  refine ⟨ht, hp, hN, ?_⟩
  unfold RT.ray_color
  simp only [ht, gt_iff_lt]
  rw [if_pos (by norm_num), hN]
  simp [vec3.smul_eq]
  norm_num

/-! ## camera::initialize and camera::get_ray -/

theorem initialize_center (sqrt tan : ℝ → ℝ) (pi : ℝ) (cam : camera ℝ) :
    ( camera.initialize sqrt tan pi cam).center = cam.lookfrom := rfl

/-- C13: for every camera configuration with `defocus_angle ≤ 0` (in particular
`defocus_angle = 0`), every pixel `(i, j)` and every outcome of the random
sources, the ray returned by `get_ray` on the initialized camera has its origin
exactly at the camera centre `lookfrom`, and its direction is
`pixel_sample - center`. -/
theorem get_ray_origin_without_defocus (tan : ℝ → ℝ) (pi : ℝ) (cam : camera ℝ)
    (st : camera.state ℝ) (rx ry : ℝ) (p : vec3 ℝ) (i j : Int)
    (hst : st = camera.initialize Real.sqrt tan pi cam) (h : cam.defocus_angle ≤ 0) :
    (cam.get_ray st rx ry p i j).origin = cam.lookfrom ∧
      (cam.get_ray st rx ry p i j).origin = st.center ∧
      (cam.get_ray st rx ry p i j).direction =
        st.pixel00_loc + (((i : ℝ) + (rx - 1 / 2)) * st.pixel_delta_u)
          + (((j : ℝ) + (ry - 1 / 2)) * st.pixel_delta_v) - st.center := by
  have hc : st.center = cam.lookfrom := by rw [hst]; rfl
  have ho : (cam.get_ray st rx ry p i j).origin = st.center := by
    unfold camera.get_ray
    simp only [if_pos h]
  refine ⟨ho.trans hc, ho, ?_⟩
  unfold camera.get_ray
  simp only [if_pos h, camera.sample_square]

/-- The default camera (`defocus_angle = 0`), pixel `(3, 7)`, jitter outcomes
`0.25` and `0.75` and disk sample `(0.3, 0.4, 0)`: the ray starts at the default
`lookfrom = (0,0,0)`. -/
theorem get_ray_origin_without_defocus_witness :
    (default_camera : camera ℝ).defocus_angle ≤ 0 ∧
      ((default_camera : camera ℝ).get_ray
        ( camera.initialize Real.sqrt Real.tan Real.pi default_camera)
        (1 / 4) (3 / 4) ⟨3 / 10, 2 / 5, 0⟩ 3 7).origin = ⟨0, 0, 0⟩ := by
  have h0 : (default_camera : camera ℝ).defocus_angle ≤ 0 := by simp [default_camera]
  exact ⟨h0, (get_ray_origin_without_defocus Real.tan Real.pi default_camera _ (1 / 4) (3 / 4)
    ⟨3 / 10, 2 / 5, 0⟩ 3 7 rfl h0).1⟩

theorem sphere.hit_true_iff (s : sphere ℝ) (r : ray ℝ) (ray_t : interval ℝ)
    (rec : hit_record ℝ) (hD : r.direction ≠ ⟨0, 0, 0⟩) :
    (sphere.hit Real.sqrt s r ray_t rec).1 = true ↔
      ∃ t : ℝ, ray_t.min < bound.fin t ∧ bound.fin t < ray_t.max ∧
        (r.at t - s.center).length_squared = s.radius * s.radius := by
  have ha := sphere.a_pos r hD
  rw [sphere.hit_fst]
  simp only [Bool.and_eq_true, Bool.or_eq_true, decide_eq_true_eq, interval.surrounds_iff]
  constructor
  · rintro ⟨hd, h | h⟩
    · exact ⟨_, h.1, h.2, (sphere.on_sphere_iff_root s r _ ha).2 ⟨hd, Or.inl rfl⟩⟩
    · exact ⟨_, h.1, h.2, (sphere.on_sphere_iff_root s r _ ha).2 ⟨hd, Or.inr rfl⟩⟩
  · rintro ⟨t, h1, h2, h3⟩
    obtain ⟨hd, h | h⟩ := (sphere.on_sphere_iff_root s r t ha).1 h3
    · exact ⟨hd, Or.inl (h ▸ ⟨h1, h2⟩)⟩
    · exact ⟨hd, Or.inr (h ▸ ⟨h1, h2⟩)⟩

theorem length_squared_eq_zero (v : vec3 ℝ) : v.length_squared = 0 ↔ v = ⟨0, 0, 0⟩ := by
  rw [vec3.ext_iff3]
  unfold vec3.length_squared
  constructor
  · intro h
    have hx := mul_self_nonneg v.x
    have hy := mul_self_nonneg v.y
    have hz := mul_self_nonneg v.z
    refine ⟨?_, ?_, ?_⟩
    · exact mul_self_eq_zero.1 (by linarith)
    · exact mul_self_eq_zero.1 (by linarith)
    · exact mul_self_eq_zero.1 (by linarith)
  · rintro ⟨hx, hy, hz⟩
    rw [hx, hy, hz]; ring

theorem sub_eq_zero3 (u v : vec3 ℝ) : u - v = ⟨0, 0, 0⟩ ↔ u = v := by
  rw [vec3.ext_iff3, vec3.ext_iff3 u v]
  simp only [vec3.sub_eq, sub_eq_zero]

theorem make_radius_of_nonpos (center : point3 ℝ) (radius : ℝ) (h : radius ≤ 0) :
    (sphere.make center radius).radius = 0 ∧ (sphere.make center radius).center = center := by
  simp [sphere.make, h]

/-- C15 at its failing input: the spheres constructed with radius `0` and with
radius `-3` at `(0,0,-1)` are the same sphere of radius `0`, and the ray from
`(0,0,0)` with direction `(0,0,-1)`, which passes through its centre at `t = 1`,
is reported as a hit over `(0.001, +∞)` instead of a miss; the recorded point is
the centre, so the normal recorded there is the quotient `(p - center) / radius`
with `p - center = (0,0,0)` and `radius = 0`. -/
theorem zero_radius_sphere_reports_hit :
    (point_sphere : sphere ℝ) = sphere.make ⟨0, 0, -1⟩ 0 ∧
      sphere.make (⟨0, 0, -1⟩ : point3 ℝ) (-3) = point_sphere ∧
      (point_sphere : sphere ℝ).radius = 0 ∧
      (sphere.hit Real.sqrt point_sphere demo_ray camera.ray_t
        (zero_record : hit_record ℝ)).1 = true ∧
      (sphere.hit Real.sqrt (sphere.make ⟨0, 0, -1⟩ (-3)) demo_ray camera.ray_t
        (zero_record : hit_record ℝ)).1 = true ∧
      (sphere.hit Real.sqrt point_sphere demo_ray camera.ray_t
        (zero_record : hit_record ℝ)).2.p = (point_sphere : sphere ℝ).center ∧
      (sphere.hit Real.sqrt point_sphere demo_ray camera.ray_t
        (zero_record : hit_record ℝ)).2.p - (point_sphere : sphere ℝ).center = ⟨0, 0, 0⟩ := by
  have h3 : sphere.make (⟨0, 0, -1⟩ : point3 ℝ) (-3) = point_sphere := by
    simp [point_sphere, sphere.make]
  obtain ⟨hit, ht⟩ := point_sphere_hit zero_record
  have hp : (sphere.hit Real.sqrt point_sphere demo_ray camera.ray_t
      (zero_record : hit_record ℝ)).2.p = (point_sphere : sphere ℝ).center := by
    have hp0 : (sphere.hit Real.sqrt point_sphere demo_ray camera.ray_t
        (zero_record : hit_record ℝ)).2.p = (demo_ray : ray ℝ).at (sphere.hit Real.sqrt
          point_sphere demo_ray camera.ray_t (zero_record : hit_record ℝ)).2.t := by
      conv_lhs => rw [sphere.hit_snd Real.sqrt _ _ _ _ hit]
      rfl
    rw [hp0, ht]
    simp [ray.at_eq, demo_ray, point_sphere, sphere.make]
  refine ⟨rfl, h3, by simp [point_sphere, sphere.make], hit, ?_, hp, ?_⟩
  · rw [h3]
    exact hit
  · rw [hp]
    simp [vec3.sub_eq]

/-- The rays that `sphere::hit` reports for a sphere of radius `0`: for a
sphere constructed with radius `0` or with a negative radius, a ray of non-zero
direction and an interval, `sphere::hit` returns true exactly when the ray
passes through the centre `C` at some `t` with `min < t < max`; these are the
inputs on which the hit is followed by the division by the radius `0`. -/
theorem zero_radius_hit_iff_through_center (center : point3 ℝ) (radius : ℝ) (r : ray ℝ)
    (ray_t : interval ℝ) (rec : hit_record ℝ) (hrad : radius ≤ 0)
    (hD : r.direction ≠ ⟨0, 0, 0⟩) :
    ((sphere.hit Real.sqrt (sphere.make center radius) r ray_t rec).1 = true ↔
        ∃ t : ℝ, ray_t.min < bound.fin t ∧ bound.fin t < ray_t.max ∧
          r.origin + t * r.direction = center) ∧
      ((∀ t : ℝ, ray_t.min < bound.fin t → bound.fin t < ray_t.max →
          r.origin + t * r.direction ≠ center) →
        (sphere.hit Real.sqrt (sphere.make center radius) r ray_t rec).1 = false) := by
  obtain ⟨h0, hc⟩ := make_radius_of_nonpos center radius hrad
  have key : (sphere.hit Real.sqrt (sphere.make center radius) r ray_t rec).1 = true ↔
      ∃ t : ℝ, ray_t.min < bound.fin t ∧ bound.fin t < ray_t.max ∧
        r.origin + t * r.direction = center := by
    rw [sphere.hit_true_iff _ r ray_t rec hD, h0, hc, mul_zero]
    constructor
    · rintro ⟨t, h1, h2, h3⟩
      exact ⟨t, h1, h2, (sub_eq_zero3 _ _).1 ((length_squared_eq_zero _).1 h3)⟩
    · rintro ⟨t, h1, h2, h3⟩
      exact ⟨t, h1, h2, (length_squared_eq_zero _).2 ((sub_eq_zero3 _ _).2 h3)⟩
  refine ⟨key, fun hno => ?_⟩
  rw [← Bool.not_eq_true, key]
  rintro ⟨t, h1, h2, h3⟩
  exact hno t h1 h2 h3

theorem dot_self_eq (v : vec3 ℝ) : dot v v = v.length_squared := rfl

/-- C16: for every ray with non-zero direction `D`, the quadratic coefficient
`a = |D|^2` that `sphere::hit` and `hit_sphere_simple` compute as
`length_squared()` and `hit_sphere` as `dot(D, D)` is strictly positive, so the
divisors `a` and `2a` of the root formulas are not zero. -/
theorem quadratic_coefficient_pos (r : ray ℝ) (hD : r.direction ≠ ⟨0, 0, 0⟩) :
    0 < sphere.a r ∧ sphere.a r ≠ 0 ∧
      0 < r.direction.length_squared ∧
      0 < dot r.direction r.direction ∧ 2 * dot r.direction r.direction ≠ 0 := by
  have ha := sphere.a_pos r hD
  have hd : 0 < dot r.direction r.direction := by rw [dot_self_eq]; exact ha
  exact ⟨ha, ha.ne.symm, ha, hd, by positivity⟩

/-- The central camera ray of main.cpp has direction `(0,0,-1)`, and `a = 1`. -/
theorem quadratic_coefficient_pos_witness :
    (demo_ray : ray ℝ).direction ≠ ⟨0, 0, 0⟩ ∧ 0 < sphere.a (demo_ray : ray ℝ) ∧
      sphere.a (demo_ray : ray ℝ) = 1 :=
  ⟨demo_ray_direction_ne, (quadratic_coefficient_pos demo_ray demo_ray_direction_ne).1,
    by simp [sphere.a, demo_ray, vec3.length_squared]⟩

/-! ## The full quadratic formula against the half-b form -/

theorem hit_sphere_eq (sqrt : ℝ → ℝ) (center : point3 ℝ) (radius : ℝ) (r : ray ℝ) :
    hit_sphere sqrt center radius r =
      if (-2 * dot r.direction (center - r.origin)) * (-2 * dot r.direction (center - r.origin))
          - 4 * dot r.direction r.direction
            * (dot (center - r.origin) (center - r.origin) - radius * radius) < 0
      then -1
      else (-(-2 * dot r.direction (center - r.origin))
        - sqrt ((-2 * dot r.direction (center - r.origin))
            * (-2 * dot r.direction (center - r.origin))
          - 4 * dot r.direction r.direction
            * (dot (center - r.origin) (center - r.origin) - radius * radius)))
        / (2 * dot r.direction r.direction) := rfl

/-- The discriminant `b*b - 4*a*c` of `hit_sphere` is four times the
discriminant `h*h - a*c` of `hit_sphere_simple` and `sphere::hit`. -/
theorem full_discriminant_eq (center : point3 ℝ) (radius : ℝ) (r : ray ℝ) :
    (-2 * dot r.direction (center - r.origin)) * (-2 * dot r.direction (center - r.origin))
        - 4 * dot r.direction r.direction
          * (dot (center - r.origin) (center - r.origin) - radius * radius)
      = 4 * sphere.discriminant ⟨center, radius⟩ r := by
  simp only [sphere.discriminant, sphere.h, sphere.a, sphere.c, dot_self_eq]
  ring

theorem sqrt_four_mul (x : ℝ) : Real.sqrt (4 * x) = 2 * Real.sqrt x := by
  rw [show (4 : ℝ) = 2 ^ 2 by norm_num, Real.sqrt_mul (by positivity), Real.sqrt_sq (by norm_num)]

/-- C18: for every centre, radius and ray with non-zero direction, `hit_sphere`
(full quadratic formula) and `hit_sphere_simple` (half-b form) return the same
value and take the miss branch, which returns `-1.0`, on exactly the same
inputs; and where the discriminant is not negative, the first candidate root of
`sphere::hit` is that value. -/
theorem half_b_equivalence (center : point3 ℝ) (radius : ℝ) (r : ray ℝ)
    (_hD : r.direction ≠ ⟨0, 0, 0⟩) :
    hit_sphere Real.sqrt center radius r = hit_sphere_simple Real.sqrt center radius r ∧
      ((-2 * dot r.direction (center - r.origin)) * (-2 * dot r.direction (center - r.origin))
          - 4 * dot r.direction r.direction
            * (dot (center - r.origin) (center - r.origin) - radius * radius) < 0 ↔
        dot r.direction (center - r.origin) * dot r.direction (center - r.origin)
          - r.direction.length_squared
            * ((center - r.origin).length_squared - radius * radius) < 0) ∧
      (hit_sphere Real.sqrt center radius r = -1 ↔
        hit_sphere_simple Real.sqrt center radius r = -1) ∧
      (0 ≤ sphere.discriminant ⟨center, radius⟩ r →
        sphere.near_root Real.sqrt ⟨center, radius⟩ r =
          hit_sphere_simple Real.sqrt center radius r) := by
  have hfull := full_discriminant_eq center radius r
  have heq : hit_sphere Real.sqrt center radius r
      = hit_sphere_simple Real.sqrt center radius r := by
    rw [hit_sphere_eq, hfull, hit_sphere_simple_eq Real.sqrt ⟨center, radius⟩ r]
    by_cases hd : sphere.discriminant ⟨center, radius⟩ r < 0
    · rw [if_pos hd, if_pos (by linarith)]
    · rw [if_neg hd, if_neg (by linarith), sqrt_four_mul, sphere.near_root, dot_self_eq]
      have h2 : -(-2 * dot r.direction (center - r.origin))
          - 2 * Real.sqrt (sphere.discriminant ⟨center, radius⟩ r)
          = 2 * (sphere.h ⟨center, radius⟩ r
            - Real.sqrt (sphere.discriminant ⟨center, radius⟩ r)) := by
        simp only [sphere.h]; ring
      rw [h2, mul_div_mul_left _ _ (two_ne_zero)]
      rfl
  refine ⟨heq, ?_, by rw [heq], fun hd => ?_⟩
  · rw [hfull]
    show _ ↔ sphere.discriminant ⟨center, radius⟩ r < 0
    constructor <;> intro h <;> linarith
  · rw [hit_sphere_simple_eq Real.sqrt ⟨center, radius⟩ r, if_neg (not_lt.2 hd)]

/-- The sphere and central ray of main.cpp: both functions return `0.5`. -/
theorem half_b_equivalence_witness :
    (demo_ray : ray ℝ).direction ≠ ⟨0, 0, 0⟩ ∧
      hit_sphere Real.sqrt (⟨0, 0, -1⟩ : point3 ℝ) (1 / 2) demo_ray = 1 / 2 ∧
      hit_sphere_simple Real.sqrt (⟨0, 0, -1⟩ : point3 ℝ) (1 / 2) demo_ray = 1 / 2 := by
  have h := (half_b_equivalence ⟨0, 0, -1⟩ (1 / 2) demo_ray demo_ray_direction_ne).1
  have hs : hit_sphere_simple Real.sqrt (⟨0, 0, -1⟩ : point3 ℝ) (1 / 2) demo_ray = 1 / 2 := by
    have he := hit_sphere_simple_eq Real.sqrt (demo_sphere : sphere ℝ) demo_ray
    rw [demo_discriminant, if_neg (by norm_num), demo_near_root] at he
    exact he
  exact ⟨demo_ray_direction_ne, h.trans hs, hs⟩

/-! ## The record on a miss -/

/-- The record that `sphere::hit` leaves when it returns false is the record it
was given. -/
theorem sphere.hit_snd_of_miss {K : Type} [LinearOrderedField K] (sqrt : K → K) (s : sphere K)
    (r : ray K) (ray_t : interval K) (rec : hit_record K)
    (hmiss : (sphere.hit sqrt s r ray_t rec).1 = false) :
    (sphere.hit sqrt s r ray_t rec).2 = rec := by
  revert hmiss
  unfold sphere.hit
  simp only [← sphere.a.eq_1, ← sphere.h.eq_1, ← sphere.c.eq_1, ← sphere.discriminant.eq_1,
    ← sphere.near_root.eq_1, ← sphere.far_root.eq_1]
  by_cases hd : sphere.discriminant s r < 0
  · simp [hd]
  · cases h1 : ray_t.surrounds (sphere.near_root sqrt s r) <;>
      cases h2 : ray_t.surrounds (sphere.far_root sqrt s r) <;>
      simp [hd, h1, h2]

/-- C19: for every sphere, ray, interval and initial record `rec0`, if
`sphere::hit` returns false, through the negative discriminant or with both
roots outside the interval, the record after the call equals `rec0` in every
field (`p`, `normal`, `t`, `front_face`). -/
theorem sphere_hit_miss_keeps_record (s : sphere ℝ) (r : ray ℝ) (ray_t : interval ℝ)
    (rec0 : hit_record ℝ) (hmiss : (sphere.hit Real.sqrt s r ray_t rec0).1 = false) :
    (sphere.hit Real.sqrt s r ray_t rec0).2 = rec0 ∧
      (sphere.hit Real.sqrt s r ray_t rec0).2.p = rec0.p ∧
      (sphere.hit Real.sqrt s r ray_t rec0).2.normal = rec0.normal ∧
      (sphere.hit Real.sqrt s r ray_t rec0).2.t = rec0.t ∧
      (sphere.hit Real.sqrt s r ray_t rec0).2.front_face = rec0.front_face := by
  have h := sphere.hit_snd_of_miss Real.sqrt s r ray_t rec0 hmiss
  rw [h]
  exact ⟨rfl, rfl, rfl, rfl, rfl⟩

/-- The ray going up from `(0,0,-0.5)` misses the sphere of main.cpp with both
roots at `0`, outside `(0.001, +∞)`; a record with `t = 7` and `front_face` set
comes back unchanged. -/
theorem sphere_hit_miss_keeps_record_witness :
    (sphere.hit Real.sqrt demo_sphere up_ray camera.ray_t
        ({ p := ⟨1, 2, 3⟩, normal := ⟨0, 1, 0⟩, t := 7, front_face := true } :
          hit_record ℝ)).1 = false ∧
      (sphere.hit Real.sqrt demo_sphere up_ray camera.ray_t
        ({ p := ⟨1, 2, 3⟩, normal := ⟨0, 1, 0⟩, t := 7, front_face := true } :
          hit_record ℝ)).2 =
        { p := ⟨1, 2, 3⟩, normal := ⟨0, 1, 0⟩, t := 7, front_face := true } :=
  ⟨up_ray_miss _, (sphere_hit_miss_keeps_record demo_sphere up_ray camera.ray_t _
    (up_ray_miss _)).1⟩

/-! ## Radiance stays in the unit cube -/

/-- The vertical component of a normalized non-zero direction lies in
`[-1, 1]`. -/
theorem unit_vector_y_bounds (v : vec3 ℝ) (hv : v ≠ ⟨0, 0, 0⟩) :
    -1 ≤ (unit_vector Real.sqrt v).y ∧ (unit_vector Real.sqrt v).y ≤ 1 := by
  have hls : 0 < v.length_squared := by
    rcases lt_or_eq_of_le (show 0 ≤ v.length_squared by
      unfold vec3.length_squared
      nlinarith [mul_self_nonneg v.x, mul_self_nonneg v.y, mul_self_nonneg v.z]) with h | h
    · exact h
    · exact absurd ((length_squared_eq_zero v).1 h.symm) hv
  have hL : 0 < Real.sqrt v.length_squared := Real.sqrt_pos.2 hls
  have hL2 : Real.sqrt v.length_squared * Real.sqrt v.length_squared = v.length_squared :=
    Real.mul_self_sqrt hls.le
  have hy : (unit_vector Real.sqrt v).y = v.y / Real.sqrt v.length_squared := by
    simp only [unit_vector, vec3.div, vec3.smul, vec3.length]
    ring
  have hyy : v.y * v.y ≤ Real.sqrt v.length_squared * Real.sqrt v.length_squared := by
    rw [hL2]
    unfold vec3.length_squared
    nlinarith [mul_self_nonneg v.x, mul_self_nonneg v.z]
  rw [hy]
  constructor
  · rw [le_div_iff₀ hL]; nlinarith
  · rw [div_le_iff₀ hL]; nlinarith

/-- The background colour of a ray with non-zero direction lies in the unit
cube. -/
theorem background_in_unit_cube (r : ray ℝ) (hD : r.direction ≠ ⟨0, 0, 0⟩) :
    in_unit_cube (camera.background Real.sqrt r) := by
  obtain ⟨h1, h2⟩ := unit_vector_y_bounds r.direction hD
  rw [background_eq]
  simp only [in_unit_cube, vec3.add_eq, vec3.smul_eq]
  refine ⟨⟨?_, ?_⟩, ⟨?_, ?_⟩, ⟨?_, ?_⟩⟩ <;> nlinarith

theorem black_in_unit_cube : in_unit_cube (black : color ℝ) := by
  simp [in_unit_cube, black]

theorem mul_in_unit_cube (A c : color ℝ) (hA : in_unit_cube A) (hc : in_unit_cube c) :
    in_unit_cube (A * c) := by
  obtain ⟨⟨a1, a2⟩, ⟨a3, a4⟩, ⟨a5, a6⟩⟩ := hA
  obtain ⟨⟨c1, c2⟩, ⟨c3, c4⟩, ⟨c5, c6⟩⟩ := hc
  simp only [in_unit_cube, vec3.mul_eq]
  exact ⟨⟨mul_nonneg a1 c1, mul_le_one₀ a2 c1 c2⟩, ⟨mul_nonneg a3 c3, mul_le_one₀ a4 c3 c4⟩,
    ⟨mul_nonneg a5 c5, mul_le_one₀ a6 c5 c6⟩⟩

theorem camera.run_in_unit_cube (world : hittable ℝ) (scatter : scatter_fn ℝ)
    (rec0 : hit_record ℝ)
    (hatt : ∀ (r1 : ray ℝ) (rec1 : hit_record ℝ) (A : color ℝ) (r2 : ray ℝ),
      scatter r1 rec1 = some (A, r2) → in_unit_cube A) (n : Nat) :
    ∀ (r : ray ℝ) (depth : Int), depth.toNat = n →
      (∀ q ∈ (camera.ray_color_run Real.sqrt world scatter rec0 r depth).2,
        q.1.direction ≠ ⟨0, 0, 0⟩) →
      in_unit_cube (camera.ray_color_run Real.sqrt world scatter rec0 r depth).1 := by
  induction n with
  | zero =>
    intro r depth hd _
    rw [camera.run_nonpos Real.sqrt world scatter rec0 r depth (by omega)]
    exact black_in_unit_cube
  | succ n ih =>
    intro r depth hd hdir
    have hpos : 0 < depth := by omega
    cases hw : world r camera.ray_t rec0 with
    | mk b rec1 =>
      cases b with
      | false =>
        rw [camera.run_miss Real.sqrt world scatter rec0 r depth hpos (by rw [hw])] at hdir ⊢
        exact background_in_unit_cube r (hdir (r, depth) (by simp))
      | true =>
        cases hs : scatter r rec1 with
        | none =>
          rw [camera.run_absorb Real.sqrt world scatter rec0 r depth rec1 hpos hw hs]
          exact black_in_unit_cube
        | some pr =>
          obtain ⟨attenuation, scattered⟩ := pr
          rw [camera.run_scatter Real.sqrt world scatter rec0 r depth rec1 attenuation scattered
            hpos hw hs] at hdir ⊢
          refine mul_in_unit_cube _ _ (hatt r rec1 attenuation scattered hs)
            (ih scattered (depth - 1) (by omega) fun q hq => hdir q ?_)
          exact List.mem_cons_of_mem _ hq

/-- C20: for every depth and every world whose materials only report
attenuation colours with all components in `[0,1]`, if the rays that
`camera::ray_color` traces all have a non-zero direction, every component of
the colour it returns lies in `[0,1]`. -/
theorem ray_color_in_unit_cube (world : hittable ℝ) (scatter : scatter_fn ℝ)
    (rec0 : hit_record ℝ) (r : ray ℝ) (depth : Int)
    (hatt : ∀ (r1 : ray ℝ) (rec1 : hit_record ℝ) (A : color ℝ) (r2 : ray ℝ),
      scatter r1 rec1 = some (A, r2) →
        (0 ≤ A.x ∧ A.x ≤ 1) ∧ (0 ≤ A.y ∧ A.y ≤ 1) ∧ (0 ≤ A.z ∧ A.z ≤ 1))
    (hdir : ∀ q ∈ camera.ray_color_queries Real.sqrt world scatter rec0 r depth,
      q.1.direction ≠ ⟨0, 0, 0⟩) :
    (0 ≤ (camera.ray_color Real.sqrt world scatter rec0 r depth).x ∧
        (camera.ray_color Real.sqrt world scatter rec0 r depth).x ≤ 1) ∧
      (0 ≤ (camera.ray_color Real.sqrt world scatter rec0 r depth).y ∧
        (camera.ray_color Real.sqrt world scatter rec0 r depth).y ≤ 1) ∧
      (0 ≤ (camera.ray_color Real.sqrt world scatter rec0 r depth).z ∧
        (camera.ray_color Real.sqrt world scatter rec0 r depth).z ≤ 1) :=
  camera.run_in_unit_cube world scatter rec0 hatt depth.toNat r depth rfl hdir

theorem half_up_attenuation (r1 : ray ℝ) (rec1 : hit_record ℝ) (A : color ℝ) (r2 : ray ℝ)
    (h : half_up r1 rec1 = some (A, r2)) :
    (0 ≤ A.x ∧ A.x ≤ 1) ∧ (0 ≤ A.y ∧ A.y ≤ 1) ∧ (0 ≤ A.z ∧ A.z ≤ 1) := by
  simp only [half_up, Option.some.injEq, Prod.mk.injEq] at h
  rw [← h.1]
  norm_num

theorem demo_queries :
    camera.ray_color_queries Real.sqrt (sphere.hit Real.sqrt demo_sphere) half_up
      (zero_record : hit_record ℝ) demo_ray 2 = [(demo_ray, 2), (up_ray, 1)] := by
  have hs : half_up (demo_ray : ray ℝ) (sphere.hit Real.sqrt demo_sphere demo_ray camera.ray_t
      (zero_record : hit_record ℝ)).2 = some (⟨1 / 2, 1 / 2, 1 / 2⟩, up_ray) := by
    simp only [half_up, demo_hit_record.2, up_ray]
  unfold camera.ray_color_queries
  rw [camera.run_scatter Real.sqrt _ half_up zero_record demo_ray 2 _ _ up_ray (by norm_num)
    demo_hit_record.1 hs]
  rw [show (2 : Int) - 1 = 1 by norm_num,
    camera.run_miss Real.sqrt _ half_up zero_record up_ray 1 (by norm_num)
      (up_ray_miss zero_record)]

/-- The central camera ray in the scene of main.cpp with the material
`half_up`, at depth 2: the rays traced are the camera ray and the ray going up
from `(0,0,-0.5)`, and the colour returned lies in the unit cube. -/
theorem ray_color_in_unit_cube_witness :
    camera.ray_color_queries Real.sqrt (sphere.hit Real.sqrt demo_sphere) half_up
        (zero_record : hit_record ℝ) demo_ray 2 = [(demo_ray, 2), (up_ray, 1)] ∧
      in_unit_cube (camera.ray_color Real.sqrt (sphere.hit Real.sqrt demo_sphere) half_up
        (zero_record : hit_record ℝ) demo_ray 2) := by
  refine ⟨demo_queries, ?_⟩
  refine ray_color_in_unit_cube (sphere.hit Real.sqrt demo_sphere) half_up zero_record demo_ray 2
    half_up_attenuation fun q hq => ?_
  rw [demo_queries] at hq
  simp only [List.mem_cons, List.mem_singleton, List.not_mem_nil, or_false] at hq
  rcases hq with h | h
  · rw [h]; exact demo_ray_direction_ne
  · rw [h]; simp [up_ray]

/-! ## The camera basis -/

theorem length_squared_smul (t : ℝ) (v : vec3 ℝ) :
    (t * v).length_squared = t * t * v.length_squared := by
  simp only [vec3.length_squared, vec3.smul_eq]; ring

theorem dot_smul_left (t : ℝ) (a b : vec3 ℝ) : dot (t * a) b = t * dot a b := by
  simp only [dot, vec3.smul_eq]; ring

theorem cross_smul_right (t : ℝ) (a b : vec3 ℝ) : cross a (t * b) = t * cross a b := by
  simp only [cross, vec3.smul_eq]
  rw [vec3.ext_iff3]
  exact ⟨by ring, by ring, by ring⟩

theorem dot_cross_left (a b : vec3 ℝ) : dot (cross a b) a = 0 := by
  simp only [dot, cross]; ring

theorem dot_cross_right (a b : vec3 ℝ) : dot (cross a b) b = 0 := by
  simp only [dot, cross]; ring

theorem cross_length_squared (a b : vec3 ℝ) :
    (cross a b).length_squared = a.length_squared * b.length_squared - dot a b * dot a b := by
  simp only [vec3.length_squared, dot, cross]; ring

theorem length_squared_pos (v : vec3 ℝ) (hv : v ≠ ⟨0, 0, 0⟩) : 0 < v.length_squared := by
  have h0 : 0 ≤ v.length_squared := by
    unfold vec3.length_squared
    nlinarith [mul_self_nonneg v.x, mul_self_nonneg v.y, mul_self_nonneg v.z]
  rcases lt_or_eq_of_le h0 with h | h
  · exact h
  · exact absurd ((length_squared_eq_zero v).1 h.symm) hv

theorem unit_vector_eq (v : vec3 ℝ) :
    unit_vector Real.sqrt v = (1 / Real.sqrt v.length_squared) * v := rfl

/-- A normalized non-zero vector has squared length 1. -/
theorem unit_vector_length_squared (v : vec3 ℝ) (hv : v ≠ ⟨0, 0, 0⟩) :
    (unit_vector Real.sqrt v).length_squared = 1 := by
  have hls := length_squared_pos v hv
  have hL : 0 < Real.sqrt v.length_squared := Real.sqrt_pos.2 hls
  rw [unit_vector_eq, length_squared_smul]
  have h2 := Real.mul_self_sqrt hls.le
  field_simp

/-- Two vectors with vanishing cross product, the second non-zero, are
parallel. -/
theorem parallel_of_cross_eq_zero (a d : vec3 ℝ) (hd : d ≠ ⟨0, 0, 0⟩)
    (hc : cross a d = ⟨0, 0, 0⟩) : ∃ k : ℝ, a = k * d := by
  have hls := length_squared_pos d hd
  rw [vec3.ext_iff3] at hc
  simp only [cross] at hc
  obtain ⟨c1, c2, c3⟩ := hc
  refine ⟨dot a d / d.length_squared, ?_⟩
  rw [vec3.ext_iff3]
  simp only [vec3.smul_eq]
  refine ⟨?_, ?_, ?_⟩
  · rw [div_mul_eq_mul_div, eq_div_iff hls.ne.symm]
    simp only [dot, vec3.length_squared]
    linear_combination d.y * c3 - d.z * c2
  · rw [div_mul_eq_mul_div, eq_div_iff hls.ne.symm]
    simp only [dot, vec3.length_squared]
    linear_combination d.z * c1 - d.x * c3
  · rw [div_mul_eq_mul_div, eq_div_iff hls.ne.symm]
    simp only [dot, vec3.length_squared]
    linear_combination d.x * c2 - d.y * c1

theorem initialize_basis (sqrt tan : ℝ → ℝ) (pi : ℝ) (cam : camera ℝ) :
    ( camera.initialize sqrt tan pi cam).w = unit_vector sqrt (cam.lookfrom - cam.lookat) ∧
      ( camera.initialize sqrt tan pi cam).u =
        unit_vector sqrt (cross cam.vup (unit_vector sqrt (cam.lookfrom - cam.lookat))) ∧
      ( camera.initialize sqrt tan pi cam).v =
        cross (unit_vector sqrt (cam.lookfrom - cam.lookat))
          (unit_vector sqrt (cross cam.vup (unit_vector sqrt (cam.lookfrom - cam.lookat)))) :=
  ⟨rfl, rfl, rfl⟩

/-- C17: for every `lookfrom ≠ lookat` and every `vup` that is not parallel to
`lookfrom - lookat`, the vectors `w = unit(lookfrom - lookat)`,
`u = unit(cross(vup, w))`, `v = cross(w, u)` that `initialize` computes each
have length 1 and are pairwise orthogonal. -/
theorem camera_basis_orthonormal (tan : ℝ → ℝ) (pi : ℝ) (cam : camera ℝ)
    (st : camera.state ℝ) (hst : st = camera.initialize Real.sqrt tan pi cam)
    (hlook : cam.lookfrom ≠ cam.lookat)
    (hvup : ∀ k : ℝ, cam.vup ≠ k * (cam.lookfrom - cam.lookat)) :
    st.u.length Real.sqrt = 1 ∧ st.v.length Real.sqrt = 1 ∧ st.w.length Real.sqrt = 1 ∧
      dot st.u st.v = 0 ∧ dot st.v st.w = 0 ∧ dot st.u st.w = 0 := by
  obtain ⟨hw, hu, hv⟩ := initialize_basis Real.sqrt tan pi cam
  rw [← hst] at hw hu hv
  rw [← hw] at hu hv
  rw [← hu] at hv
  have hd : cam.lookfrom - cam.lookat ≠ ⟨0, 0, 0⟩ := fun h => hlook ((sub_eq_zero3 _ _).1 h)
  have hL : 0 < Real.sqrt (cam.lookfrom - cam.lookat).length_squared :=
    Real.sqrt_pos.2 (length_squared_pos _ hd)
  have hcd : cross cam.vup (cam.lookfrom - cam.lookat) ≠ ⟨0, 0, 0⟩ := fun h => by
    obtain ⟨k, hk⟩ := parallel_of_cross_eq_zero _ _ hd h
    exact hvup k hk
  have hc : cross cam.vup st.w ≠ ⟨0, 0, 0⟩ := by
    rw [hw, unit_vector_eq, cross_smul_right]
    intro h
    have h0 := (length_squared_eq_zero _).2 h
    rw [length_squared_smul] at h0
    have hpos := length_squared_pos _ hcd
    have : 0 < 1 / Real.sqrt (cam.lookfrom - cam.lookat).length_squared
        * (1 / Real.sqrt (cam.lookfrom - cam.lookat).length_squared)
        * (cross cam.vup (cam.lookfrom - cam.lookat)).length_squared := by positivity
    linarith
  have hw1 : st.w.length_squared = 1 := by rw [hw]; exact unit_vector_length_squared _ hd
  have hu1 : st.u.length_squared = 1 := by rw [hu]; exact unit_vector_length_squared _ hc
  have huw : dot st.u st.w = 0 := by
    rw [hu, unit_vector_eq, dot_smul_left, dot_cross_right, mul_zero]
  have hv1 : st.v.length_squared = 1 := by
    rw [hv, cross_length_squared, hw1, hu1, dot_comm st.w st.u, huw]
    norm_num
  refine ⟨?_, ?_, ?_, ?_, ?_, huw⟩
  · unfold vec3.length; rw [hu1, Real.sqrt_one]
  · unfold vec3.length; rw [hv1, Real.sqrt_one]
  · unfold vec3.length; rw [hw1, Real.sqrt_one]
  · rw [hv, dot_comm, dot_cross_right]
  · rw [hv, dot_cross_left]

/-- The default camera: `lookfrom = (0,0,0)`, `lookat = (0,0,-1)` and
`vup = (0,1,0)` give the basis `u = (1,0,0)`, `v = (0,1,0)`, `w = (0,0,1)`. -/
theorem camera_basis_orthonormal_witness :
    (default_camera : camera ℝ).lookfrom ≠ (default_camera : camera ℝ).lookat ∧
      (∀ k : ℝ, (default_camera : camera ℝ).vup ≠
        k * ((default_camera : camera ℝ).lookfrom - (default_camera : camera ℝ).lookat)) ∧
      dot ( camera.initialize Real.sqrt Real.tan Real.pi (default_camera : camera ℝ)).u
        ( camera.initialize Real.sqrt Real.tan Real.pi (default_camera : camera ℝ)).v = 0 ∧
      ( camera.initialize Real.sqrt Real.tan Real.pi
        (default_camera : camera ℝ)).w.length Real.sqrt = 1 := by
  have h1 : (default_camera : camera ℝ).lookfrom ≠ (default_camera : camera ℝ).lookat := by
    simp [default_camera]
  have h2 : ∀ k : ℝ, (default_camera : camera ℝ).vup ≠
      k * ((default_camera : camera ℝ).lookfrom - (default_camera : camera ℝ).lookat) := by
    intro k h
    rw [vec3.ext_iff3] at h
    simp [default_camera, vec3.sub_eq, vec3.smul_eq] at h
  have h := camera_basis_orthonormal Real.tan Real.pi default_camera _ rfl h1 h2
  exact ⟨h1, h2, h.2.2.2.1, h.2.2.1⟩

end RT
